import Mathlib

/-
  Shallow embedding of the URL utility module (src/utils/url.ts) of the hono
  repository, together with proofs of the specified properties.

  JavaScript strings are modelled as Lean String (lists of characters); the
  possibly-throwing host decoders (decodeURI, decodeURIComponent) are modelled
  as functions into Option String, with none standing for a thrown URIError.
  Host regular expressions are modelled by their source text, together with a
  small matcher for the anchored subset the module generates.
-/

namespace HonoUrl

/-! ### JavaScript string primitives -/

/-- The character with code 123 (left curly brace). -/
def lbrace : Char := Char.ofNat 123

/-- The character with code 125 (right curly brace). -/
def rbrace : Char := Char.ofNat 125

/-- JS charCodeAt: the character code at an index, none modelling NaN. -/
def charCodeAt? (cs : List Char) (i : Int) : Option Nat :=
  if i < 0 then none else (cs.get? i.toNat).map Char.toNat

/-- First position p with s <= p at which pat occurs in cs, if any. -/
def firstHitFrom (cs pat : List Char) (s : Nat) : Option Nat :=
  (List.range (cs.length + 1)).find? (fun p => decide (s ≤ p) && pat.isPrefixOf (cs.drop p))

/-- JS String.indexOf(pat, start): leftmost occurrence at or after start, -1 if none. -/
def jsIndexOfFrom (cs pat : List Char) (start : Int) : Int :=
  match firstHitFrom cs pat start.toNat with
  | some p => (p : Int)
  | none => -1

/-- JS String.includes(pat). -/
def containsSub (cs pat : List Char) : Bool :=
  (firstHitFrom cs pat 0).isSome

/-- Clamp a JS slice index (negative indices count from the end). -/
def jsSliceIdx (len : Nat) (i : Int) : Nat :=
  (if i < 0 then ((len : Int) + i).toNat else i.toNat).min len

/-- JS String.slice(start, stop?), stop = none modelling undefined. -/
def jsSlice (cs : List Char) (start : Int) (stop : Option Int) : List Char :=
  let s := jsSliceIdx cs.length start
  let e := match stop with
    | none => cs.length
    | some j => jsSliceIdx cs.length j
  (cs.drop s).take (e - s)

/-- The dollar character, the escape lead-in of a JS replacement string. -/
def dollar : Char := Char.ofNat 36

/-- The backquote character, the trigger of the before-the-match substitution
of a replacement string. -/
def bquote : Char := Char.ofNat 96

/-- The apostrophe character, the trigger of the after-the-match substitution
of a replacement string. -/
def squote : Char := Char.ofNat 39

/-- GetSubstitution on a replacement string when the search has no capture
groups and no named groups (the only shape this module produces): a dollar
followed by a dollar, an ampersand, a backquote or an apostrophe expands to a
literal dollar, the matched text, the text before the match and the text
after the match; every other character, including a dollar followed by
anything else (digit references exceed the zero captures and are kept
literally), is copied verbatim. -/
def getSubst (matched pre post : List Char) : List Char → List Char
  | [] => []
  | [c] => [c]
  | c :: d :: t =>
    if c = dollar ∧ d = dollar then dollar :: getSubst matched pre post t
    else if c = dollar ∧ d = '&' then matched ++ getSubst matched pre post t
    else if c = dollar ∧ d = bquote then pre ++ getSubst matched pre post t
    else if c = dollar ∧ d = squote then post ++ getSubst matched pre post t
    else c :: getSubst matched pre post (d :: t)

/-- Scanner of String.replace with a plain string pattern: pre accumulates
the text already passed over, so that on the first occurrence the replacement
can be expanded by GetSubstitution against the matched text and its
surroundings. -/
def replFirstGo (pat rep : List Char) : List Char → List Char → List Char
  | _, [] => []
  | pre, c :: t =>
    if pat ≠ [] ∧ pat.isPrefixOf (c :: t) then
      getSubst pat pre ((c :: t).drop pat.length) rep ++ (c :: t).drop pat.length
    else c :: replFirstGo pat rep (pre ++ [c]) t

/-- String.replace with a plain string pattern: only the first occurrence is
replaced, and the replacement undergoes GetSubstitution. -/
def replaceFirstSub (pat rep l : List Char) : List Char :=
  replFirstGo pat rep [] l

/-- Fuel-driven loop of replaceAllSub; each unit of fuel consumes at least one
character, so fuel = length + 1 never runs out.  pre accumulates the text
already consumed of the original string, for GetSubstitution at each match. -/
def replaceAllGo (pat rep : List Char) : Nat → List Char → List Char → List Char
  | 0, _, l => l
  | _ + 1, _, [] => []
  | f + 1, pre, c :: t =>
    if pat ≠ [] ∧ pat.isPrefixOf (c :: t) then
      getSubst pat pre ((c :: t).drop pat.length) rep ++
        replaceAllGo pat rep f (pre ++ pat) ((c :: t).drop pat.length)
    else c :: replaceAllGo pat rep f (pre ++ [c]) t

/-- Global replacement of a plain (metacharacter-free) pattern, leftmost and
non-overlapping, as performed by a global regex replace in JS, the
replacement string expanded by GetSubstitution at each match. -/
def replaceAllSub (pat rep l : List Char) : List Char :=
  replaceAllGo pat rep (l.length + 1) [] l

/-- One step of the JS split on a single-character separator: a separator
opens a fresh empty piece, any other character is prepended to the current
(first) piece. -/
def splitStep (sep c : Char) (acc : List (List Char)) : List (List Char) :=
  if c = sep then [] :: acc
  else
    match acc with
    | a :: rest => (c :: a) :: rest
    | [] => [[c]]

/-- JS String.split on a single-character separator (empty pieces kept). -/
def jsSplitCh (cs : List Char) (sep : Char) : List (List Char) :=
  cs.foldr (splitStep sep) [[]]

/-- Drop a leading empty piece (the shift performed by splitPath). -/
def stripLeadEmpty : List (List Char) → List (List Char)
  | [] :: t => t
  | l => l

/-- Append a suffix to the last piece of a piece list (spec-side helper
describing how a separator-free infix glues the two halves of a split). -/
def glueLast : List (List Char) → List Char → List (List Char)
  | [], h => [h]
  | [x], h => [x ++ h]
  | x :: xs, h => x :: glueLast xs h

/-- JS Array.filter((v, i, a) => a.indexOf(v) === i): keep first occurrences. -/
def dedupKeepFirst (seen : List String) : List String → List String
  | [] => []
  | x :: t => if x ∈ seen then dedupKeepFirst seen t else x :: dedupKeepFirst (x :: seen) t

/-- Head-character test (JS s[0] === c on a possibly empty string). -/
def firstIs (s : List Char) (c : Char) : Bool :=
  s.head? = some c

/-- Last-character test (JS s.at(-1) === c on a possibly empty string). -/
def lastIs (s : List Char) (c : Char) : Bool :=
  s.getLast? = some c

/-- Modelled from the spec wording for the join normal form: ensure a leading
slash on the base fragment. -/
def leadSlash (b : List Char) : List Char :=
  if firstIs b '/' then b else '/' :: b

/-- Modelled from the spec wording for the join normal form: remove one
trailing slash if present. -/
def dropTrailOne (b : List Char) : List Char :=
  if lastIs b '/' then b.dropLast else b

/-- Modelled from the spec wording for the join normal form: remove one
leading slash if present. -/
def dropLeadOne (s : List Char) : List Char :=
  if firstIs s '/' then s.tail else s

/-! ### mergePath (src/utils/url.ts lines 154-165) -/

/-- The body of mergePath for two fragments, on character lists:
(base[0] === '/' ? '' : '/') + base
  + (sub === '/' ? '' : (base.at(-1) === '/' ? '' : '/') + (sub[0] === '/' ? sub.slice(1) : sub)). -/
def mergeTwoC (base sub : List Char) : List Char :=
  (if firstIs base '/' then [] else ['/']) ++ base ++
    (if sub = ['/'] then []
     else (if lastIs base '/' then [] else ['/']) ++ (if firstIs sub '/' then sub.tail else sub))

/-- mergePath(base, sub, ...rest): right-fold of mergeTwoC, as in the source. -/
def mergePath : String → String → List String → String
  | base, sub, [] => ⟨mergeTwoC base.data sub.data⟩
  | base, sub, r :: rs => ⟨mergeTwoC base.data (mergePath sub r rs).data⟩

/-! ### checkOptionalParameter (src/utils/url.ts lines 167-202) -/

/-- One step of the forEach loop in checkOptionalParameter: state is
(results, basePath). -/
def copStep (state : List String × String) (segment : String) : List String × String :=
  let results := state.1
  let basePath := state.2
  if segment ≠ "" ∧ ¬ segment.data.contains ':' then
    (results, basePath ++ "/" ++ segment)
  else if segment.data.contains ':' then
    if segment.data.contains '?' then
      let results := if results = [] ∧ basePath = "" then results ++ ["/"] else results ++ [basePath]
      let optionalSegment : String := ⟨replaceFirstSub ['?'] [] segment.data⟩
      let basePath := basePath ++ "/" ++ optionalSegment
      (results ++ [basePath], basePath)
    else (results, basePath ++ "/" ++ segment)
  else (results, basePath)

/-- checkOptionalParameter(path): expansion of a trailing optional parameter. -/
def checkOptionalParameter (path : String) : Option (List String) :=
  if charCodeAt? path.data ((path.length : Int) - 1) ≠ some 63 ∨ ¬ path.data.contains ':' then
    none
  else
    let segments := (jsSplitCh path.data '/').map (fun l => (⟨l⟩ : String))
    let st := segments.foldl copStep ([], "")
    some (dedupKeepFirst [] st.1)

/-! ### The host decoders decodeURI / decodeURIComponent

Modelled from the ECMAScript Decode abstract operation: percent escapes are
parsed as bytes, byte sequences are decoded as UTF-8, and any malformed escape
or invalid byte sequence throws (modelled as none).  decodeURI keeps escapes of
its reserved set undecoded. -/

/-- The type of a possibly-throwing string decoder. -/
def Decoder : Type := String → Option String

/-- Value of a hexadecimal digit character, if it is one (codes 48-57 are the
decimal digits, 65-70 upper case A-F, 97-102 lower case a-f). -/
def hexDigit? (c : Char) : Option Nat :=
  let n := c.toNat
  if 48 ≤ n ∧ n ≤ 57 then some (n - 48)
  else if 65 ≤ n ∧ n ≤ 70 then some (n - 55)
  else if 97 ≤ n ∧ n ≤ 102 then some (n - 87)
  else none

/-- Whether a character is a hexadecimal digit. -/
def isHexDigit (c : Char) : Bool :=
  (hexDigit? c).isSome

/-- Parse one leading percent escape: the byte, its two hex characters and the rest. -/
def escByte? : List Char → Option (Nat × Char × Char × List Char)
  | '%' :: h1 :: h2 :: t =>
    match hexDigit? h1, hexDigit? h2 with
    | some a, some b => some (16 * a + b, h1, h2, t)
    | _, _ => none
  | _ => none

/-- Parse one continuation byte of a UTF-8 sequence (an escape in 0x80..0xBF). -/
def contByte? (cs : List Char) : Option (Nat × List Char) :=
  match escByte? cs with
  | some (b, _, _, t) => if 0x80 ≤ b ∧ b < 0xC0 then some (b, t) else none
  | none => none

/-- Parse k continuation bytes. -/
def contBytes : Nat → List Char → Option (List Nat × List Char)
  | 0, t => some ([], t)
  | k + 1, t =>
    match contByte? t with
    | some (b, t1) =>
      match contBytes k t1 with
      | some (bs, t2) => some (b :: bs, t2)
      | none => none
    | none => none

/-- The reserved set of decodeURI: uriReserved plus the hash sign. -/
def uriReservedHash (c : Char) : Bool :=
  c ∈ [';', '/', '?', ':', '@', '&', '=', '+', '$', ',', '#']

/-- The ECMAScript Decode loop; fuel bounds the recursion (one unit per escape
or literal character, so fuel = length + 1 never runs out). -/
def jsDecodeGo (res : Char → Bool) : Nat → List Char → Option (List Char)
  | 0, _ => none
  | _ + 1, [] => some []
  | f + 1, c :: t =>
    if c ≠ '%' then (jsDecodeGo res f t).map (c :: ·)
    else
      match escByte? (c :: t) with
      | none => none
      | some (b, h1, h2, t1) =>
        if b < 0x80 then
          let ch := Char.ofNat b
          (jsDecodeGo res f t1).map (fun r => if res ch then '%' :: h1 :: h2 :: r else ch :: r)
        else if b < 0xC0 then none
        else if b < 0xE0 then
          match contBytes 1 t1 with
          | some ([b1], t2) =>
            let cp := (b - 0xC0) * 0x40 + (b1 - 0x80)
            if 0x80 ≤ cp then (jsDecodeGo res f t2).map (Char.ofNat cp :: ·) else none
          | _ => none
        else if b < 0xF0 then
          match contBytes 2 t1 with
          | some ([b1, b2], t2) =>
            let cp := (b - 0xE0) * 0x1000 + (b1 - 0x80) * 0x40 + (b2 - 0x80)
            if 0x800 ≤ cp ∧ ¬ (0xD800 ≤ cp ∧ cp < 0xE000) then
              (jsDecodeGo res f t2).map (Char.ofNat cp :: ·)
            else none
          | _ => none
        else if b < 0xF8 then
          match contBytes 3 t1 with
          | some ([b1, b2, b3], t2) =>
            let cp := (b - 0xF0) * 0x40000 + (b1 - 0x80) * 0x1000 + (b2 - 0x80) * 0x40 + (b3 - 0x80)
            if 0x10000 ≤ cp ∧ cp ≤ 0x10FFFF then
              (jsDecodeGo res f t2).map (Char.ofNat cp :: ·)
            else none
          | _ => none
        else none

/-- Run the Decode loop on a string with a given reserved set. -/
def jsDecodeWith (res : Char → Bool) (s : String) : Option String :=
  (jsDecodeGo res (s.length + 1) s.data).map (fun l => (⟨l⟩ : String))

/-- Model of the host decodeURI. -/
def jsDecodeURI : Decoder := jsDecodeWith uriReservedHash

/-- Model of the host decodeURIComponent (exported as decodeURIComponent_). -/
def decodeURIComponent_ : Decoder := jsDecodeWith (fun _ => false)

/-! ### tryDecode (src/utils/url.ts lines 81-93) -/

/-- Whether a string starts with a valid percent escape. -/
def escStart : List Char → Bool
  | c :: h1 :: h2 :: _ => c = '%' && isHexDigit h1 && isHexDigit h2
  | _ => false

/-- Decomposition of a string into maximal percent-escape runs (inl) and the
remaining single characters (inr), in order; this is how the global regex
(?:%[0-9A-Fa-f]\x7b2\x7d)+ scans the string in the fallback of tryDecode.
A run piece collects consecutive escapes greedily, exactly as takeRun does. -/
def runSplit : List Char → List (List Char ⊕ Char)
  | [] => []
  | c :: t =>
    if escStart (c :: t) then
      match t with
      | h1 :: h2 :: t1 =>
        if escStart t1 then
          match runSplit t1 with
          | Sum.inl r :: rest => Sum.inl (c :: h1 :: h2 :: r) :: rest
          | other => Sum.inl [c, h1, h2] :: other
        else Sum.inl [c, h1, h2] :: runSplit t1
      | _ => []
    else Sum.inr c :: runSplit t

/-- The text a decomposition piece stands for. -/
def pieceRaw : List Char ⊕ Char → List Char
  | Sum.inl r => r
  | Sum.inr c => [c]

/-- Decode one piece: a run is decoded if the decoder accepts it and kept
verbatim otherwise; characters outside runs are untouched. -/
def runPiece (d : Decoder) : List Char ⊕ Char → List Char
  | Sum.inl r =>
    match d ⟨r⟩ with
    | some s => s.data
    | none => r
  | Sum.inr c => [c]

/-- tryDecode(str, decoder): try the whole string, and on failure decode each
maximal percent-escape run individually, keeping runs the decoder rejects. -/
def tryDecode (str : String) (decoder : Decoder) : String :=
  match decoder str with
  | some s => s
  | none => ⟨((runSplit str.data).map (runPiece decoder)).flatten⟩

/-- tryDecodeURI = tryDecode with decodeURI. -/
def tryDecodeURI (s : String) : String := tryDecode s jsDecodeURI

/-- Nonempty sequence of percent escapes, the shape matched by the fallback regex. -/
def isEscapeRun : List Char → Bool
  | c :: h1 :: h2 :: t =>
    c = '%' && isHexDigit h1 && isHexDigit h2 && (t.isEmpty || isEscapeRun t)
  | _ => false

/-- Whether a piece list starts with a run piece. -/
def inlHead : List (List Char ⊕ Char) → Bool
  | Sum.inl _ :: _ => true
  | _ => false

/-- No two adjacent run pieces: each run in the decomposition is maximal. -/
def noTwoInl : List (List Char ⊕ Char) → Bool
  | [] => true
  | Sum.inl _ :: rest => !inlHead rest && noTwoInl rest
  | Sum.inr _ :: rest => noTwoInl rest

/-! ### getPath (src/utils/url.ts lines 106-130) -/

/-- The character-scanning loop of getPath, from index i (fuel-driven; each
unit of fuel advances i by one). 37 is the percent sign, 63 the question mark. -/
def getPathGo (cs : List Char) (start : Int) : Nat → Int → String
  | 0, i => ⟨jsSlice cs start (some i)⟩
  | f + 1, i =>
    if i < (cs.length : Int) then
      match charCodeAt? cs i with
      | some 37 =>
        let queryIndex := jsIndexOfFrom cs ['?'] i
        let path := jsSlice cs start (if queryIndex = -1 then none else some queryIndex)
        tryDecodeURI
          ⟨if containsSub path ['%', '2', '5'] then
              replaceAllSub ['%', '2', '5'] ['%', '2', '5', '2', '5'] path
            else path⟩
      | some 63 => ⟨jsSlice cs start (some i)⟩
      | _ => getPathGo cs start f (i + 1)
    else ⟨jsSlice cs start (some i)⟩

/-- The start offset of the path in a URL: the first '/' after the scheme and
authority, probed at fixed offset 13 for http+unix:// (character 9 is a
colon, code 58) and 8 otherwise. -/
def getPathStart (cs : List Char) : Int :=
  jsIndexOfFrom cs ['/'] (if charCodeAt? cs 9 = some 58 then 13 else 8)

/-- getPath(request): the path portion of request.url, decoded only when a
percent sign occurs in it.  The Request object is modelled by its url string. -/
def getPath (url : String) : String :=
  let cs := url.data
  getPathGo cs (getPathStart cs) (cs.length + 2) (getPathStart cs)

/-! ### Query extraction (src/utils/url.ts lines 204-308) -/

/-- The optimized _decodeURI: return unencoded strings unchanged, replace plus
signs by spaces, and percent-decode via tryDecode with decodeURIComponent_. -/
def _decodeURI (value : String) : String :=
  if ¬ (value.data.contains '%' ∨ value.data.contains '+') then value
  else
    let value := if value.data.contains '+' then ⟨value.data.map (fun c => if c = '+' then ' ' else c)⟩ else value
    if value.data.contains '%' then tryDecode value decodeURIComponent_ else value

/-- Values stored as own properties of the results object of _getQueryParam:
a plain string in single-value mode, an array in multi-value mode. -/
inductive QV where
  | s (v : String)
  | arr (vs : List String)
deriving DecidableEq, Repr

/-- The results object literal of _getQueryParam: its own properties in
insertion order, plus its prototype.  The prototype starts as
Object.prototype (protoArr = none) and becomes an array (protoArr = some
values) when multi-value mode assigns through the inherited __proto__
accessor. -/
structure ResObj where
  own : List (String × QV)
  protoArr : Option (List String)
deriving DecidableEq, Repr

/-- The possible JS return values of _getQueryParam: undefined, a decoded
string, an array of decoded strings, a number (the inherited length of an
array prototype), an inherited host function or object read off the
prototype chain (tagged with the resolved property name), or the whole
results object. -/
inductive JSValue where
  | undef
  | str (v : String)
  | arr (vs : List String)
  | num (n : Nat)
  | proto (k : String)
  | obj (o : ResObj)
deriving DecidableEq, Repr

/-- First binding of a key among the own properties (JS own-property read). -/
def lookupQ (res : List (String × QV)) (k : String) : Option QV :=
  (res.find? (fun e => e.1 == k)).map (·.2)

/-- Replace the value of an existing key in place (JS assignment to a present
key keeps its insertion position). -/
def setQ (k : String) (v : QV) : List (String × QV) → List (String × QV)
  | [] => []
  | e :: t => if e.1 == k then (k, v) :: t else e :: setQ k v t

/-- The property names of Object.prototype, the prototype of the results
object literal: their inherited values are host functions (or, for
__proto__, an accessor returning the current prototype object), all of them
non-nullish and none of them an array. -/
def objectProtoKeys : List String :=
  ["constructor", "hasOwnProperty", "isPrototypeOf", "propertyIsEnumerable",
    "toLocaleString", "toString", "valueOf", "__proto__",
    "__defineGetter__", "__defineSetter__", "__lookupGetter__", "__lookupSetter__"]

/-- Whether a key names a member of Object.prototype. -/
def isProtoKey (k : String) : Bool :=
  objectProtoKeys.contains k

/-- The property names of Array.prototype: their inherited values are host
functions, non-nullish and not arrays. -/
def arrayProtoKeys : List String :=
  ["at", "concat", "constructor", "copyWithin", "entries", "every", "fill",
    "filter", "find", "findIndex", "findLast", "findLastIndex", "flat",
    "flatMap", "forEach", "includes", "indexOf", "join", "keys",
    "lastIndexOf", "length", "map", "pop", "push", "reduce", "reduceRight",
    "reverse", "shift", "slice", "some", "sort", "splice", "toLocaleString",
    "toReversed", "toSorted", "toSpliced", "toString", "unshift", "values",
    "with"]

/-- Property read of the results object when its prototype has been switched
to the array l: __proto__ reads back the array through the inherited
accessor, the canonical index strings and length resolve to the array's own
elements and length, method names resolve along the array's prototype chain,
and everything else is undefined. -/
def pollutedRead (l : List String) (k : String) : JSValue :=
  if k = "__proto__" then JSValue.arr l
  else if k = "length" then JSValue.num l.length
  else
    match (List.range l.length).find? (fun i => k == Nat.repr i) with
    | some i => JSValue.str (l.getD i "")
    | none =>
      if arrayProtoKeys.contains k ∨ isProtoKey k = true then JSValue.proto k
      else JSValue.undef

/-- Single-value accumulation, results[name] ??= value: the read consults the
prototype chain, so a name of an Object.prototype member (whose inherited
value is never nullish) assigns nothing; single-value mode never assigns
through the __proto__ accessor, so its prototype stays Object.prototype
throughout.  Otherwise the first occurrence wins and later assignments to a
present own key are ignored. -/
def singleAdd (res : ResObj) (k v : String) : ResObj :=
  if isProtoKey k = true then res
  else
    match lookupQ res.own k with
    | none => ⟨res.own ++ [(k, QV.s v)], res.protoArr⟩
    | some _ => res

/-- Multi-value accumulation: push onto the existing own array of the key, or
start a fresh own array; a truthy non-array read (an own string or an
inherited prototype member) is overwritten by an own array.  The name
__proto__ is the exception: the object has no own property of that name, and
the assignment results[name] = [] goes through the inherited __proto__
accessor, switching the prototype to the fresh array, onto which the
subsequent reads push. -/
def multiAdd (res : ResObj) (k v : String) : ResObj :=
  match lookupQ res.own k with
  | some (QV.arr vs) => ⟨setQ k (QV.arr (vs ++ [v])) res.own, res.protoArr⟩
  | some (QV.s _) => ⟨setQ k (QV.arr [v]) res.own, res.protoArr⟩
  | none =>
    if k = "__proto__" then
      match res.protoArr with
      | none => ⟨res.own, some [v]⟩
      | some l => ⟨res.own, some (l ++ [v])⟩
    else ⟨res.own ++ [(k, QV.arr [v])], res.protoArr⟩

/-- Property read of the results object at the end of the general routine:
an own property, else a member inherited from the prototype chain (the
untouched Object.prototype, or the array the prototype was switched to),
else undefined. -/
def resRead (res : ResObj) (k : String) : JSValue :=
  match lookupQ res.own k with
  | some (QV.s v) => JSValue.str v
  | some (QV.arr vs) => JSValue.arr vs
  | none =>
    match res.protoArr with
    | some l => pollutedRead l k
    | none => if isProtoKey k = true then JSValue.proto k else JSValue.undef

/-- One iteration of the general scanning loop of _getQueryParam: from the
position of the '?' or '&' preceding the current pair, compute the position
of the next pair and, unless the (possibly decoded) name is empty (the
continue case), the decoded name and value of the current pair. -/
def gqpScan (url : List Char) (encoded : Bool) (keyIndex : Int) :
    Int × Option (String × String) :=
  let nextKeyIndex := jsIndexOfFrom url ['&'] (keyIndex + 1)
  let valueIndex0 := jsIndexOfFrom url ['='] keyIndex
  let valueIndex := if valueIndex0 > nextKeyIndex ∧ nextKeyIndex ≠ -1 then -1 else valueIndex0
  let name0 : String :=
    ⟨jsSlice url (keyIndex + 1)
      (if valueIndex = -1 then (if nextKeyIndex = -1 then none else some nextKeyIndex)
       else some valueIndex)⟩
  let name := if encoded then _decodeURI name0 else name0
  if name = "" then (nextKeyIndex, none)
  else
    let value : String :=
      if valueIndex = -1 then ""
      else
        let v : String := ⟨jsSlice url (valueIndex + 1) (if nextKeyIndex = -1 then none else some nextKeyIndex)⟩
        if encoded then _decodeURI v else v
    (nextKeyIndex, some (name, value))

/-- The general scanning loop of _getQueryParam over key=value pairs.  The
loop variable keyIndex points at the '?' or '&' preceding the current pair;
fuel bounds the iteration count (keyIndex strictly increases). -/
def gqpLoop (url : List Char) (encoded multiple : Bool) :
    Nat → Int → ResObj → ResObj
  | 0, _, res => res
  | f + 1, keyIndex, res =>
    if keyIndex = -1 then res
    else
      match gqpScan url encoded keyIndex with
      | (nextKeyIndex, none) => gqpLoop url encoded multiple f nextKeyIndex res
      | (nextKeyIndex, some (name, value)) =>
        gqpLoop url encoded multiple f nextKeyIndex
          (if multiple then multiAdd res name value else singleAdd res name value)

/-- The general routine: scan all pairs, then index by the requested key
(JS obj[key], an own property, an inherited member, or undefined) or, when
the key is absent or the empty string (which is falsy, so key ? a : b takes
the object branch), return the whole results object. -/
def gqpGeneral (url : List Char) (encoded : Bool) (key : Option String) (multiple : Bool) : JSValue :=
  let res := gqpLoop url encoded multiple (url.length + 2) (jsIndexOfFrom url ['?'] 8) ⟨[], none⟩
  match key with
  | some k => if k = "" then JSValue.obj res else resRead res k
  | none => JSValue.obj res

/-- The fast-path loop for a plain key: find ?key or &key, check the character
after the key (61 is '=', 38 is '&', none is NaN at end of string), otherwise
move to the next candidate.  none as result means the loop ran out. -/
def fastLoop (url k : List Char) : Nat → Int → Option JSValue
  | 0, _ => none
  | f + 1, keyIndex =>
    if keyIndex = -1 then none
    else
      let trailing := charCodeAt? url (keyIndex + (k.length : Int) + 1)
      if trailing = some 61 then
        let valueIndex := keyIndex + (k.length : Int) + 2
        let endIndex := jsIndexOfFrom url ['&'] valueIndex
        some (JSValue.str (_decodeURI ⟨jsSlice url valueIndex (if endIndex = -1 then none else some endIndex)⟩))
      else if trailing = some 38 ∨ trailing = none then some (JSValue.str "")
      else fastLoop url k f (jsIndexOfFrom url ('&' :: k) (keyIndex + 1))

/-- _getQueryParam(url, key?, multiple?): fast path for a plain key in
single-value mode, general routine otherwise. -/
def _getQueryParam (urlS : String) (key : Option String) (multiple : Bool) : JSValue :=
  let url := urlS.data
  match key with
  | some k =>
    if multiple = false ∧ k ≠ "" ∧ ¬ (k.data.contains '%' ∨ k.data.contains '+') then
      let keyIndex0 := jsIndexOfFrom url ('?' :: k.data) 8
      let keyIndex := if keyIndex0 = -1 then jsIndexOfFrom url ('&' :: k.data) 8 else keyIndex0
      match fastLoop url k.data (url.length + 2) keyIndex with
      | some v => v
      | none =>
        let encoded := url.contains '%' || url.contains '+'
        if encoded = false then JSValue.undef
        else gqpGeneral url true key multiple
    else gqpGeneral url (url.contains '%' || url.contains '+') key multiple
  | none => gqpGeneral url (url.contains '%' || url.contains '+') key multiple

/-- getQueryParam(url, key?) = _getQueryParam(url, key). -/
def getQueryParam (url : String) (key : Option String) : JSValue :=
  _getQueryParam url key false

/-- getQueryParams(url, key?) = _getQueryParam(url, key, true). -/
def getQueryParams (url : String) (key : Option String) : JSValue :=
  _getQueryParam url key true

/-! ### getPattern and the pattern cache (src/utils/url.ts lines 50-78) -/

/-- A compiled pattern: the wildcard sentinel, or the triple
[label, paramName, RegExp | true]; a host RegExp object is modelled by its
source text and the true marker by none. -/
inductive Pattern where
  | star
  | capture (label : String) (name : String) (constraint : Option String)
deriving DecidableEq, Repr

/-- The module-level pattern cache, modelled as explicit state: an insertion
ordered association list from cache keys to patterns. -/
abbrev PCache : Type := List (String × Pattern)

/-- First binding of a cache key. -/
def lookupP (c : PCache) (k : String) : Option Pattern :=
  (List.find? (fun e => e.1 == k) c).map (·.2)

/-- Whether a character is not a curly brace (the class [^\x7b\x7d]). -/
def notBrace (c : Char) : Bool :=
  ¬ (c = lbrace ∨ c = rbrace)

/-- Whether a character is not an ECMAScript line terminator: the dot of a
regex without the s flag matches any character except LF, CR, LINE SEPARATOR
and PARAGRAPH SEPARATOR.  The negated class of the name part has no such
exclusion. -/
def notLineTerm (c : Char) : Bool :=
  ¬ (c.toNat = 10 ∨ c.toNat = 13 ∨ c.toNat = 8232 ∨ c.toNat = 8233)

/-- Decomposition of a label by the regex ^\:([^\x7b\x7d]+)(?:\x7b(.+)\x7d)?$ :
the capture name (longest brace-free run after the colon) and the optional
constraint (everything between the first left brace and the final right
brace; each of its characters is matched by the dot, so a line terminator in
the constraint makes the whole match fail).  none when the label is not of
that form. -/
def matchLabel (label : List Char) : Option (List Char × Option (List Char)) :=
  match label with
  | c :: rest =>
    if c = ':' then
      let name := rest.takeWhile notBrace
      let rem := rest.dropWhile notBrace
      match rem with
      | [] => if name = [] then none else some (name, none)
      | b :: rem1 =>
        if name = [] then none
        else if b = rbrace then none
        else if rem1.getLast? = some rbrace ∧ rem1.dropLast ≠ [] ∧
            rem1.dropLast.all notLineTerm = true then
          some (name, some rem1.dropLast)
        else none
    else none
  | [] => none

/-- Modelled from the claim wording: a label of the pattern grammar, either
a colon followed by a nonempty brace-free name, or additionally a brace
group holding a nonempty constraint free of line terminators. -/
def isPatternForm (label : List Char) : Prop :=
  ∃ name : List Char, name ≠ [] ∧ (∀ c ∈ name, notBrace c = true) ∧
    (label = ':' :: name ∨
      ∃ con : List Char, con ≠ [] ∧ (∀ c ∈ con, notLineTerm c = true) ∧
        label = ':' :: (name ++ lbrace :: (con ++ [rbrace])))

/-- getPattern(label, next?): the wildcard, a memoized capture, or none for a
plain literal.  The mutable patternCache is threaded as explicit state; the
cache key is the template literal label#next, where an absent next prints as
the text undefined. -/
def getPattern (cache : PCache) (label : String) (next : Option String) :
    Option Pattern × PCache :=
  if label = "*" then (some Pattern.star, cache)
  else
    match matchLabel label.data with
    | none => (none, cache)
    | some (name, con?) =>
      let cacheKey := label ++ "#" ++ (match next with | some n => n | none => "undefined")
      match lookupP cache cacheKey with
      | some p => (some p, cache)
      | none =>
        let p :=
          match con? with
          | none => Pattern.capture label ⟨name⟩ none
          | some con =>
            match next with
            | some nx =>
              if nx ≠ "" ∧ firstIs nx.data ':' = false ∧ firstIs nx.data '*' = false then
                Pattern.capture cacheKey ⟨name⟩ (some ("^" ++ (⟨con⟩ : String) ++ "(?=/" ++ nx ++ ")"))
              else Pattern.capture label ⟨name⟩ (some ("^" ++ (⟨con⟩ : String) ++ "$"))
            | none => Pattern.capture label ⟨name⟩ (some ("^" ++ (⟨con⟩ : String) ++ "$"))
        (some p, cache ++ [(cacheKey, p)])

/-! ### A matcher for the anchored regexes the module generates

Modelled from the host RegExp semantics, restricted to the constructs needed
here: literal characters, character classes with ranges, the dot, and the
quantifiers +, * and ? on a single atom, inside a fully anchored ^...$
pattern. -/

/-- A regex atom. -/
inductive RAtom where
  | lit (c : Char)
  | cls (neg : Bool) (items : List (Char × Char))
  | dot
deriving DecidableEq, Repr

/-- A sequence piece: an atom required once, repeated zero or more times, or
optional (a + quantifier parses as once followed by zero-or-more). -/
inductive RPiece where
  | once (a : RAtom)
  | many (a : RAtom)
  | perhaps (a : RAtom)
deriving DecidableEq, Repr

/-- Whether an atom matches one character. -/
def atomMatch : RAtom → Char → Bool
  | RAtom.lit c, x => x = c
  | RAtom.cls neg items, x =>
    let m := items.any (fun r => r.1 ≤ x ∧ x ≤ r.2)
    if neg then !m else m
  | RAtom.dot, x => x ≠ '\n'

/-- Backtracking matcher for an end-anchored piece sequence; fuel bounds the
recursion (each step shortens the input or the pieces). -/
def seqMatch : Nat → List RPiece → List Char → Bool
  | 0, _, _ => false
  | _ + 1, [], cs => cs.isEmpty
  | _ + 1, RPiece.once _ :: _, [] => false
  | f + 1, RPiece.once a :: ps, c :: cs => atomMatch a c && seqMatch f ps cs
  | f + 1, RPiece.many a :: ps, cs =>
    seqMatch f ps cs ||
      (match cs with
       | [] => false
       | c :: cs1 => atomMatch a c && seqMatch f (RPiece.many a :: ps) cs1)
  | f + 1, RPiece.perhaps a :: ps, cs =>
    seqMatch f ps cs ||
      (match cs with
       | [] => false
       | c :: cs1 => atomMatch a c && seqMatch f ps cs1)

/-- Parse the items of a character class, up to the closing bracket. -/
def parseClsItems : List Char → Option (List (Char × Char) × List Char)
  | [] => none
  | ']' :: t => some ([], t)
  | a :: '-' :: b :: t =>
    if b = ']' then
      match parseClsItems ('-' :: b :: t) with
      | some (items, rest) => some ((a, a) :: items, rest)
      | none => none
    else
      match parseClsItems t with
      | some (items, rest) => some ((a, b) :: items, rest)
      | none => none
  | a :: t =>
    match parseClsItems t with
    | some (items, rest) => some ((a, a) :: items, rest)
    | none => none

/-- Parse one atom. -/
def parseAtom : List Char → Option (RAtom × List Char)
  | [] => none
  | '[' :: '^' :: t =>
    match parseClsItems t with
    | some (items, rest) => some (RAtom.cls true items, rest)
    | none => none
  | '[' :: t =>
    match parseClsItems t with
    | some (items, rest) => some (RAtom.cls false items, rest)
    | none => none
  | '.' :: t => some (RAtom.dot, t)
  | '\\' :: c :: t => some (RAtom.lit c, t)
  | c :: t =>
    if c = '^' ∨ c = '$' ∨ c = '(' ∨ c = ')' ∨ c = '*' ∨ c = '+' ∨ c = '?' ∨
        c = '|' ∨ c = lbrace ∨ c = rbrace then none
    else some (RAtom.lit c, t)

/-- Parse a sequence of atoms with quantifiers, ending exactly at a final
dollar sign; fuel bounds the recursion. -/
def parseSeq : Nat → List Char → Option (List RPiece)
  | 0, _ => none
  | _ + 1, ['$'] => some []
  | f + 1, l =>
    match parseAtom l with
    | some (a, rest) =>
      match rest with
      | '+' :: t =>
        match parseSeq f t with
        | some ps => some (RPiece.once a :: RPiece.many a :: ps)
        | none => none
      | '*' :: t =>
        match parseSeq f t with
        | some ps => some (RPiece.many a :: ps)
        | none => none
      | '?' :: t =>
        match parseSeq f t with
        | some ps => some (RPiece.perhaps a :: ps)
        | none => none
      | t =>
        match parseSeq f t with
        | some ps => some (RPiece.once a :: ps)
        | none => none
    | none => none

/-- RegExp(source).test(input) for the fully anchored subset: parse ^...$ and
run the backtracking matcher over the whole input. -/
def regexTest (source input : String) : Bool :=
  match source.data with
  | '^' :: body =>
    match parseSeq (body.length + 1) body with
    | some ps => seqMatch (input.length + ps.length + 1) ps input.data
    | none => false
  | _ => false

/-! ### splitPath and splitRoutingPath (src/utils/url.ts lines 8-48) -/

/-- splitPath(path): split on '/' and drop a leading empty segment. -/
def splitPathC (cs : List Char) : List (List Char) :=
  stripLeadEmpty (jsSplitCh cs '/')

/-- splitPath on strings. -/
def splitPath (s : String) : List String :=
  (splitPathC s.data).map (fun l => (⟨l⟩ : String))

/-- Content of a brace group: the characters before the first right brace,
and the rest after it. -/
def splitAtRBrace : List Char → Option (List Char × List Char)
  | [] => none
  | c :: t =>
    if c = rbrace then some ([], t)
    else
      match splitAtRBrace t with
      | some (p, r) => some (c :: p, r)
      | none => none

/-- The scanning loop of the global replace of \x7b[^\x7d]+\x7d by markers in
extractGroupsFromPath: pos is the index of the current character in the
original string, the marker for a group is the at sign followed by the decimal
offset of its match; fuel bounds the recursion (each unit consumes at least
one character). -/
def extractGo : Nat → Nat → List Char → List Char × List (List Char × List Char)
  | 0, _, cs => (cs, [])
  | _ + 1, _, [] => ([], [])
  | f + 1, pos, c :: t =>
    if c = lbrace then
      match splitAtRBrace t with
      | some (content, rest) =>
        if content = [] then
          let r := extractGo f (pos + 1) t
          (c :: r.1, r.2)
        else
          let mark := '@' :: (Nat.repr pos).data
          let r := extractGo f (pos + content.length + 2) rest
          (mark ++ r.1, (mark, lbrace :: content ++ [rbrace]) :: r.2)
      | none =>
        let r := extractGo f (pos + 1) t
        (c :: r.1, r.2)
    else
      let r := extractGo f (pos + 1) t
      (c :: r.1, r.2)

/-- extractGroupsFromPath(path): the marker-substituted path and the recorded
(marker, brace span) pairs in appearance order. -/
def extractGroupsFromPath (cs : List Char) : List Char × List (List Char × List Char) :=
  extractGo (cs.length + 1) 0 cs

/-- Restore one group: scan the segments from the end, replace the first
occurrence of the marker in the last segment that contains it, and stop. -/
def restoreLast (mark content : List Char) : List (List Char) → List (List Char)
  | [] => []
  | p :: t =>
    if t.any (fun q => containsSub q mark) then p :: restoreLast mark content t
    else if containsSub p mark then replaceFirstSub mark content p :: t
    else p :: t

/-- replaceGroupMarks(paths, groups): walk the groups in reverse order,
restoring each marker into the last segment containing it. -/
def replaceGroupMarks (paths : List (List Char)) (groups : List (List Char × List Char)) :
    List (List Char) :=
  groups.reverse.foldl (fun ps g => restoreLast g.1 g.2 ps) paths

/-- splitRoutingPath(routePath) on character lists. -/
def splitRoutingPathC (cs : List Char) : List (List Char) :=
  let eg := extractGroupsFromPath cs
  replaceGroupMarks (splitPathC eg.1) eg.2

/-- splitRoutingPath(routePath): segments of a route template, with brace
groups protected from splitting. -/
def splitRoutingPath (s : String) : List String :=
  (splitRoutingPathC s.data).map (fun l => (⟨l⟩ : String))

/-! ## Theorems -/

/-! ### Shared helper lemmas -/

/-- A true lastIs test decomposes the list as dropLast plus the final slash. -/
theorem lastIs_decomp {l : List Char} {c : Char} (h : lastIs l c = true) :
    l.dropLast ++ [c] = l := by
  have hg : l.getLast? = some c := of_decide_eq_true h
  exact List.dropLast_append_getLast? c (by simp [hg])

/-- A true firstIs test decomposes the list as the head slash plus the tail. -/
theorem firstIs_decomp {l : List Char} {c : Char} (h : firstIs l c = true) :
    l = c :: l.tail := by
  have hg : l.head? = some c := of_decide_eq_true h
  exact List.eq_cons_of_mem_head? (by simp [hg])

/-- lastIs ignores a cons in front of a nonempty list. -/
theorem lastIs_cons {l : List Char} {a c : Char} (h : l ≠ []) :
    lastIs (a :: l) c = lastIs l c := by
  cases l with
  | nil => exact absurd rfl h
  | cons b t => simp [lastIs, List.getLast?_cons_cons]

/-- C6 cex helper and C8 helper: lookupP on an appended singleton for a fresh key. -/
theorem lookupP_append_self {c : PCache} {k : String} {p : Pattern}
    (h : lookupP c k = none) : lookupP (c ++ [(k, p)]) k = some p := by
  unfold lookupP at *
  rw [List.find?_append]
  cases hf : List.find? (fun e => e.1 == k) c with
  | none => simp [hf, List.find?]
  | some e => simp [hf] at h

/-- lookupP is preserved by appending entries on the right. -/
theorem lookupP_append_mono {c : PCache} {k : String} {v : Pattern} (l : PCache)
    (h : lookupP c k = some v) : lookupP (c ++ l) k = some v := by
  unfold lookupP at *
  rw [List.find?_append]
  cases hf : List.find? (fun e => e.1 == k) c with
  | none => simp [hf] at h
  | some e => simpa [hf] using h

/-! ### Helper lemmas for the routing-split development -/

/-- Decimal digit characters are digits. -/
theorem digitChar_isDigit {k : Nat} (h : k < 10) : (Nat.digitChar k).isDigit = true := by
  interval_cases k <;> decide

/-- Characters produced by the base-10 digit loop are digits or from the accumulator. -/
theorem toDigitsCore_mem :
    ∀ (f n : Nat) (acc : List Char) (c : Char),
      c ∈ Nat.toDigitsCore 10 f n acc → c ∈ acc ∨ c.isDigit = true := by
  intro f
  induction f with
  | zero => intro n acc c hc; exact Or.inl hc
  | succ f ih =>
    intro n acc c hc
    unfold Nat.toDigitsCore at hc
    by_cases hz : n / 10 = 0
    · simp only [hz, if_true] at hc
      rcases List.mem_cons.mp hc with h | h
      · exact Or.inr (h ▸ digitChar_isDigit (Nat.mod_lt _ (by omega)))
      · exact Or.inl h
    · simp only [hz, if_false] at hc
      rcases ih (n / 10) (Nat.digitChar (n % 10) :: acc) c hc with h | h
      · rcases List.mem_cons.mp h with h2 | h2
        · exact Or.inr (h2 ▸ digitChar_isDigit (Nat.mod_lt _ (by omega)))
        · exact Or.inl h2
      · exact Or.inr h

/-- Every character of the decimal representation of a number is a digit. -/
theorem repr_mem_isDigit {n : Nat} {c : Char} (h : c ∈ (Nat.repr n).data) :
    c.isDigit = true := by
  have : c ∈ Nat.toDigitsCore 10 (n + 1) n [] := h
  rcases toDigitsCore_mem (n + 1) n [] c this with h2 | h2
  · exact absurd h2 (List.not_mem_nil c)
  · exact h2

/-- A digit character is none of the special characters of the path syntax. -/
theorem isDigit_ne {c : Char} (h : c.isDigit = true) :
    c ≠ '/' ∧ c ≠ '@' := by
  constructor <;> rintro rfl <;> exact absurd h (by decide)

/-- The JS split never returns an empty piece list. -/
theorem jsSplitCh_ne_nil (cs : List Char) (sep : Char) : jsSplitCh cs sep ≠ [] := by
  induction cs with
  | nil => simp [jsSplitCh]
  | cons c t ih =>
    show splitStep sep c (jsSplitCh t sep) ≠ []
    unfold splitStep
    by_cases hc : c = sep
    · simp [hc]
    · cases ht : jsSplitCh t sep with
      | nil => simp [hc]
      | cons a rest => simp [hc]

/-- Every character of a split piece is a character of the split string. -/
theorem jsSplitCh_mem_subset {cs : List Char} {sep : Char} {q : List Char}
    (hq : q ∈ jsSplitCh cs sep) : ∀ c ∈ q, c ∈ cs := by
  induction cs generalizing q with
  | nil =>
    simp [jsSplitCh] at hq
    simp [hq]
  | cons x t ih =>
    intro c hc
    replace hq : q ∈ splitStep sep x (jsSplitCh t sep) := hq
    unfold splitStep at hq
    by_cases hx : x = sep
    · simp only [hx, if_true] at hq
      rcases List.mem_cons.mp hq with h | h
      · simp [h] at hc
      · exact List.mem_cons_of_mem _ (ih h c hc)
    · simp only [hx, if_false] at hq
      cases ht : jsSplitCh t sep with
      | nil => exact absurd ht (jsSplitCh_ne_nil t sep)
      | cons a rest =>
        rw [ht] at hq
        rcases List.mem_cons.mp hq with h | h
        · subst h
          rcases List.mem_cons.mp hc with h2 | h2
          · exact h2 ▸ List.mem_cons_self x t
          · exact List.mem_cons_of_mem _ (ih (ht ▸ List.mem_cons_self a rest) c h2)
        · exact List.mem_cons_of_mem _ (ih (ht ▸ List.mem_cons_of_mem a h) c hc)

/-- Folding a separator-free string over the split step extends the head piece. -/
theorem foldr_splitStep_nosep {sep : Char} {u : List Char} (hu : sep ∉ u)
    (h : List Char) (t : List (List Char)) :
    u.foldr (splitStep sep) (h :: t) = (u ++ h) :: t := by
  induction u with
  | nil => rfl
  | cons c u1 ih =>
    have hc : c ≠ sep := fun he => hu (he ▸ List.mem_cons_self c u1)
    have hu1 : sep ∉ u1 := fun he => hu (List.mem_cons_of_mem c he)
    simp only [List.foldr_cons, ih hu1]
    simp [splitStep, hc]

/-- glueLast never empties a piece list. -/
theorem glueLast_ne_nil (l : List (List Char)) (h : List Char) : glueLast l h ≠ [] := by
  cases l with
  | nil => simp [glueLast]
  | cons x xs => cases xs <;> simp [glueLast]

/-- Folding a string over the split step into a seeded accumulator splits the
string and glues the seed head onto its last piece. -/
theorem foldr_splitStep_glue {sep : Char} (a : List Char) (h : List Char) (t : List (List Char)) :
    a.foldr (splitStep sep) (h :: t) = glueLast (jsSplitCh a sep) h ++ t := by
  induction a generalizing h t with
  | nil => simp [jsSplitCh, glueLast]
  | cons c a1 ih =>
    simp only [List.foldr_cons, ih]
    show splitStep sep c (glueLast (jsSplitCh a1 sep) h ++ t) =
      glueLast (splitStep sep c (jsSplitCh a1 sep)) h ++ t
    by_cases hc : c = sep
    · simp only [splitStep, if_pos hc]
      cases hsa : jsSplitCh a1 sep with
      | nil => exact absurd hsa (jsSplitCh_ne_nil a1 sep)
      | cons s ss => cases ss <;> simp [glueLast]
    · cases hsa : jsSplitCh a1 sep with
      | nil => exact absurd hsa (jsSplitCh_ne_nil a1 sep)
      | cons s ss =>
        cases ss with
        | nil => simp [splitStep, hc, glueLast]
        | cons s2 ss2 =>
          simp only [splitStep, if_neg hc, glueLast]
          cases hgl : glueLast (s2 :: ss2) h with
          | nil => exact absurd hgl (glueLast_ne_nil _ _)
          | cons y ys => simp [glueLast, hgl]

/-- glueLast appends its argument to the final piece. -/
theorem glueLast_concat (xs0 : List (List Char)) (lastA X : List Char) :
    glueLast (xs0 ++ [lastA]) X = xs0 ++ [lastA ++ X] := by
  induction xs0 with
  | nil => simp [glueLast]
  | cons y ys ih =>
    cases hys : ys ++ [lastA] with
    | nil => simp at hys
    | cons z zs =>
      show glueLast (y :: (ys ++ [lastA])) X = y :: (ys ++ [lastA ++ X])
      rw [hys]
      have : glueLast (y :: z :: zs) X = y :: glueLast (z :: zs) X := rfl
      rw [this, ← hys, ih]

/-- Splitting around a separator-free nonempty infix: the split of the whole
is the split of the left part, with the infix and the first right piece glued
onto its last piece, followed by the remaining right pieces. -/
theorem jsSplitCh_mid {a u b hb0 : List Char} {tb : List (List Char)}
    {xs0 : List (List Char)} {lastA : List Char}
    (hu : ('/' : Char) ∉ u)
    (hsb : jsSplitCh b '/' = hb0 :: tb)
    (hsa : jsSplitCh a '/' = xs0 ++ [lastA]) :
    jsSplitCh (a ++ u ++ b) '/' = xs0 ++ (lastA ++ u ++ hb0) :: tb := by
  unfold jsSplitCh
  rw [List.foldr_append, List.foldr_append]
  show a.foldr (splitStep '/') (u.foldr (splitStep '/') (jsSplitCh b '/')) = _
  rw [hsb, foldr_splitStep_nosep hu, foldr_splitStep_glue, hsa, glueLast_concat]
  simp

/-- Stripping a leading empty piece commutes with appending after a nonempty
boundary piece. -/
theorem stripLeadEmpty_append {xs0 : List (List Char)} {bd : List Char}
    {tb : List (List Char)} (hbd : bd ≠ []) :
    stripLeadEmpty (xs0 ++ bd :: tb) = stripLeadEmpty xs0 ++ bd :: tb := by
  cases xs0 with
  | nil =>
    cases hb : bd with
    | nil => exact absurd hb hbd
    | cons c cs => simp [stripLeadEmpty]
  | cons q0 xs1 =>
    cases q0 with
    | nil => simp [stripLeadEmpty]
    | cons c cs => simp [stripLeadEmpty]

/-- A pattern whose head character does not occur in a string does not occur
in the string. -/
theorem containsSub_head_not_mem {q : List Char} {p0 : Char} {m : List Char}
    (h : p0 ∉ q) : containsSub q (p0 :: m) = false := by
  unfold containsSub firstHitFrom
  cases hf : List.find? (fun p => decide (0 ≤ p) && (p0 :: m).isPrefixOf (q.drop p))
      (List.range (q.length + 1)) with
  | none => rfl
  | some p =>
    exfalso
    have hp := List.find?_some hf
    simp only [Bool.and_eq_true] at hp
    have hpre : (p0 :: m) <+: q.drop p := List.isPrefixOf_iff_prefix.mp hp.2
    exact h (List.drop_subset p q (hpre.sublist.mem (List.mem_cons_self p0 m)))

/-- A pattern occurs in any string of which it is an explicit infix. -/
theorem containsSub_of_decomp (x m y : List Char) :
    containsSub (x ++ m ++ y) m = true := by
  unfold containsSub firstHitFrom
  rw [List.find?_isSome]
  refine ⟨x.length, ?_, ?_⟩
  · rw [List.mem_range]
    simp [List.length_append]
    omega
  · simp only [Bool.and_eq_true]
    refine ⟨by simp, ?_⟩
    rw [List.append_assoc, List.drop_left]
    exact List.isPrefixOf_iff_prefix.mpr ⟨y, by simp⟩

/-- replaceFirstSub is the identity when the pattern head does not occur. -/
theorem getSubst_no_dollar (m pre post : List Char) :
    ∀ rep : List Char, dollar ∉ rep → getSubst m pre post rep = rep
  | [], _ => rfl
  | [c], _ => rfl
  | c :: d :: t, h => by
    have hc : c ≠ dollar := fun he => h (he ▸ List.mem_cons_self c (d :: t))
    have hdt : dollar ∉ d :: t := fun he => h (List.mem_cons_of_mem c he)
    show getSubst m pre post (c :: d :: t) = c :: d :: t
    unfold getSubst
    rw [if_neg (fun hp => hc hp.1), if_neg (fun hp => hc hp.1),
        if_neg (fun hp => hc hp.1), if_neg (fun hp => hc hp.1)]
    rw [getSubst_no_dollar m pre post (d :: t) hdt]

/-- The first-occurrence scanner leaves a string without the pattern head
untouched, for every accumulated prefix. -/
theorem replFirstGo_no_occ {p0 : Char} {pm rep q : List Char} (h : p0 ∉ q) :
    ∀ pre, replFirstGo (p0 :: pm) rep pre q = q := by
  induction q with
  | nil => intro pre; rfl
  | cons c t ih =>
    intro pre
    have hc : c ≠ p0 := fun he => h (he ▸ List.mem_cons_self c t)
    have ht : p0 ∉ t := fun he => h (List.mem_cons_of_mem c he)
    unfold replFirstGo
    rw [if_neg, ih ht]
    rintro ⟨-, hpre⟩
    simp [List.isPrefixOf] at hpre
    exact hc hpre.1.symm

/-- replaceFirstSub is the identity on a string free of the pattern head. -/
theorem replaceFirstSub_no_occ {p0 : Char} {pm rep q : List Char} (h : p0 ∉ q) :
    replaceFirstSub (p0 :: pm) rep q = q :=
  replFirstGo_no_occ h []

/-- The first-occurrence scanner replaces the explicit first occurrence when
the pattern head does not occur before it and the replacement holds no
dollar, for every accumulated prefix. -/
theorem replFirstGo_at_junction {p0 : Char} {pm x y rep : List Char} (h : p0 ∉ x)
    (hrep : dollar ∉ rep) :
    ∀ pre, replFirstGo (p0 :: pm) rep pre (x ++ (p0 :: pm) ++ y) = x ++ rep ++ y := by
  induction x with
  | nil =>
    intro pre
    simp only [List.nil_append, List.cons_append]
    simp only [replFirstGo]
    rw [if_pos ⟨by simp, List.isPrefixOf_iff_prefix.mpr ⟨y, by simp⟩⟩]
    have : ((p0 :: pm) ++ y).drop (p0 :: pm).length = y := List.drop_left (p0 :: pm) y
    simp only [List.cons_append] at this
    rw [this, getSubst_no_dollar _ _ _ rep hrep]
  | cons c t ih =>
    intro pre
    have hc : c ≠ p0 := fun he => h (he ▸ List.mem_cons_self c t)
    have ht : p0 ∉ t := fun he => h (List.mem_cons_of_mem c he)
    show replFirstGo (p0 :: pm) rep pre (c :: (t ++ (p0 :: pm) ++ y)) = c :: (t ++ rep ++ y)
    unfold replFirstGo
    rw [if_neg, ih ht]
    rintro ⟨-, hpre⟩
    simp [List.isPrefixOf] at hpre
    exact hc hpre.1.symm

/-- replaceFirstSub replaces the explicit first occurrence when the pattern
head does not occur before it and the replacement holds no dollar. -/
theorem replaceFirstSub_at_junction {p0 : Char} {pm x y rep : List Char} (h : p0 ∉ x)
    (hrep : dollar ∉ rep) :
    replaceFirstSub (p0 :: pm) rep (x ++ (p0 :: pm) ++ y) = x ++ rep ++ y :=
  replFirstGo_at_junction h hrep []

/-- restoreLast replaces the marker inside the last piece containing it and
leaves everything else alone. -/
theorem restoreLast_decomp {mark span : List Char} {xs : List (List Char)}
    {bd : List Char} {ys : List (List Char)}
    (hys : ∀ q ∈ ys, containsSub q mark = false)
    (hbd : containsSub bd mark = true) :
    restoreLast mark span (xs ++ bd :: ys) = xs ++ replaceFirstSub mark span bd :: ys := by
  induction xs with
  | nil =>
    simp only [List.nil_append]
    unfold restoreLast
    rw [if_neg, if_pos hbd]
    simp only [List.any_eq_true, not_exists]
    intro q
    rintro ⟨hq, hcq⟩
    rw [hys q hq] at hcq
    exact absurd hcq (by simp)
  | cons p xs1 ih =>
    show restoreLast mark span (p :: (xs1 ++ bd :: ys)) = p :: (xs1 ++ replaceFirstSub mark span bd :: ys)
    unfold restoreLast
    rw [if_pos, ih]
    rw [List.any_eq_true]
    exact ⟨bd, by simp, hbd⟩

/-- Scanning behind a right brace: the first right brace cuts exactly there. -/
theorem splitAtRBrace_no_r {g b : List Char} (hg : rbrace ∉ g) :
    splitAtRBrace (g ++ rbrace :: b) = some (g, b) := by
  induction g with
  | nil => simp [splitAtRBrace]
  | cons c t ih =>
    have hc : c ≠ rbrace := fun he => hg (he ▸ List.mem_cons_self c t)
    have ht : rbrace ∉ t := fun he => hg (List.mem_cons_of_mem c he)
    show splitAtRBrace (c :: (t ++ rbrace :: b)) = some (c :: t, b)
    unfold splitAtRBrace
    rw [if_neg hc, ih ht]

/-- The marker-substitution scan is the identity on brace-free text. -/
theorem extractGo_bracefree {u : List Char} (hu : lbrace ∉ u) :
    ∀ (f p : Nat), extractGo f p u = (u, []) := by
  induction u with
  | nil => intro f p; cases f <;> rfl
  | cons c t ih =>
    intro f p
    cases f with
    | zero => rfl
    | succ f1 =>
      have hc : c ≠ lbrace := fun he => hu (he ▸ List.mem_cons_self c t)
      have ht : lbrace ∉ t := fun he => hu (List.mem_cons_of_mem c he)
      show extractGo (f1 + 1) p (c :: t) = (c :: t, [])
      unfold extractGo
      rw [if_neg hc]
      simp [ih ht f1 (p + 1)]

/-- The marker-substitution scan on a single-group template: the group is
replaced by the marker built from its offset, and recorded with its span. -/
theorem extractGo_single {a g b : List Char}
    (haL : lbrace ∉ a) (hbL : lbrace ∉ b) (hg1 : g ≠ []) (hg2 : rbrace ∉ g) :
    ∀ (f p : Nat), a.length + 1 ≤ f →
      extractGo f p (a ++ lbrace :: (g ++ rbrace :: b)) =
        (a ++ ('@' :: (Nat.repr (p + a.length)).data) ++ b,
          [('@' :: (Nat.repr (p + a.length)).data, lbrace :: (g ++ [rbrace]))]) := by
  induction a with
  | nil =>
    intro f p hf
    cases f with
    | zero => omega
    | succ f1 =>
      show extractGo (f1 + 1) p (lbrace :: (g ++ rbrace :: b)) = _
      unfold extractGo
      rw [if_pos rfl, splitAtRBrace_no_r hg2]
      simp only [hg1, if_false, extractGo_bracefree hbL]
      simp
  | cons c a1 ih =>
    intro f p hf
    cases f with
    | zero => omega
    | succ f1 =>
      have hc : c ≠ lbrace := fun he => haL (he ▸ List.mem_cons_self c a1)
      have ha1 : lbrace ∉ a1 := fun he => haL (List.mem_cons_of_mem c he)
      have heq : extractGo (f1 + 1) p ((c :: a1) ++ lbrace :: (g ++ rbrace :: b)) =
          (c :: (extractGo f1 (p + 1) (a1 ++ lbrace :: (g ++ rbrace :: b))).1,
            (extractGo f1 (p + 1) (a1 ++ lbrace :: (g ++ rbrace :: b))).2) := by
        rw [List.cons_append]
        rw [extractGo.eq_def]
        simp [hc]
      rw [heq, ih ha1 f1 (p + 1) (by simp at hf; omega)]
      have harith : p + 1 + a1.length = p + (a1.length + 1) := by omega
      simp [harith]

/-- Mapping a function that fixes every element is the identity. -/
theorem map_self_of {α : Type} {f : α → α} {l : List α} (h : ∀ x ∈ l, f x = x) :
    l.map f = l := by
  induction l with
  | nil => rfl
  | cons x t ih =>
    simp [h x (List.mem_cons_self x t), ih (fun y hy => h y (List.mem_cons_of_mem x hy))]

/-- Stripping a leading empty piece only removes pieces. -/
theorem stripLeadEmpty_subset {l : List (List Char)} {q : List Char}
    (h : q ∈ stripLeadEmpty l) : q ∈ l := by
  cases l with
  | nil => exact h
  | cons q0 t =>
    cases q0 with
    | nil => exact List.mem_cons_of_mem [] h
    | cons c cs => exact h

/-- The single-group routing-split theorem: for a template whose group
environment is free of braces, at signs and a chosen sentinel character,
splitRoutingPath treats the whole brace group as one opaque character:
a '/' inside the braces never acts as a segment delimiter, and the brace
span is restored verbatim into its segment.  The right-hand side splits the
template with the group replaced by the sentinel and then substitutes the
group back. -/
theorem splitRoutingPathC_single_group
    (a g b : List Char) (s0 : Char)
    (haL : lbrace ∉ a) (haA : '@' ∉ a) (haS : s0 ∉ a)
    (hbL : lbrace ∉ b) (hbA : '@' ∉ b) (hbS : s0 ∉ b)
    (hgNe : g ≠ []) (hgR : rbrace ∉ g) (hgD : dollar ∉ g)
    (hsSep : s0 ≠ '/') :
    splitRoutingPathC (a ++ lbrace :: (g ++ rbrace :: b)) =
      (splitPathC (a ++ s0 :: b)).map
        (replaceFirstSub [s0] (lbrace :: (g ++ [rbrace]))) := by
  obtain ⟨xs0, lastA, hsa⟩ : ∃ xs0 lastA, jsSplitCh a '/' = xs0 ++ [lastA] := by
    rcases List.eq_nil_or_concat (jsSplitCh a '/') with h | ⟨L, x, h⟩
    · exact absurd h (jsSplitCh_ne_nil a '/')
    · exact ⟨L, x, by simpa using h⟩
  obtain ⟨hb0, tb, hsb⟩ : ∃ hb0 tb, jsSplitCh b '/' = hb0 :: tb := by
    cases hsb : jsSplitCh b '/' with
    | nil => exact absurd hsb (jsSplitCh_ne_nil b '/')
    | cons x t => exact ⟨x, t, rfl⟩
  have hlastA : ∀ c ∈ lastA, c ∈ a := by
    intro c hc
    exact @jsSplitCh_mem_subset a '/' lastA
      (by rw [hsa]; exact List.mem_append_right xs0 (List.mem_cons_self lastA [])) c hc
  have hxs0 : ∀ q ∈ xs0, ∀ c ∈ q, c ∈ a := by
    intro q hq c hc
    exact @jsSplitCh_mem_subset a '/' q
      (by rw [hsa]; exact List.mem_append_left _ hq) c hc
  have hhb0 : ∀ c ∈ hb0, c ∈ b := by
    intro c hc
    exact @jsSplitCh_mem_subset b '/' hb0
      (by rw [hsb]; exact List.mem_cons_self hb0 tb) c hc
  have htb : ∀ q ∈ tb, ∀ c ∈ q, c ∈ b := by
    intro q hq c hc
    exact @jsSplitCh_mem_subset b '/' q
      (by rw [hsb]; exact List.mem_cons_of_mem hb0 hq) c hc
  have hmslash : ('/' : Char) ∉ '@' :: (Nat.repr a.length).data := by
    intro hm
    rcases List.mem_cons.mp hm with h | h
    · exact absurd h (by decide)
    · exact (isDigit_ne (repr_mem_isDigit h)).1 rfl
  have hext : extractGroupsFromPath (a ++ lbrace :: (g ++ rbrace :: b)) =
      (a ++ ('@' :: (Nat.repr a.length).data) ++ b,
        [('@' :: (Nat.repr a.length).data, lbrace :: (g ++ [rbrace]))]) := by
    unfold extractGroupsFromPath
    rw [extractGo_single haL hbL hgNe hgR _ 0 (by simp)]
    simp
  have hsplitm : jsSplitCh (a ++ ('@' :: (Nat.repr a.length).data) ++ b) '/' =
      xs0 ++ (lastA ++ ('@' :: (Nat.repr a.length).data) ++ hb0) :: tb :=
    jsSplitCh_mid hmslash hsb hsa
  have hs0mem : ('/' : Char) ∉ [s0] := by
    intro hm
    exact hsSep ((List.mem_singleton.mp hm).symm)
  have hsplits : jsSplitCh (a ++ [s0] ++ b) '/' =
      xs0 ++ (lastA ++ [s0] ++ hb0) :: tb :=
    jsSplitCh_mid hs0mem hsb hsa
  have hAlast : '@' ∉ lastA := fun hm => haA (hlastA '@' hm)
  have hSlast : s0 ∉ lastA := fun hm => haS (hlastA s0 hm)
  have hspanD : dollar ∉ lbrace :: (g ++ [rbrace]) := by
    intro hm
    rcases List.mem_cons.mp hm with h | h
    · exact absurd h (by decide)
    · rcases List.mem_append.mp h with h | h
      · exact hgD h
      · exact absurd (List.mem_singleton.mp h) (by decide)
  show replaceGroupMarks
      (splitPathC (extractGroupsFromPath (a ++ lbrace :: (g ++ rbrace :: b))).1)
      (extractGroupsFromPath (a ++ lbrace :: (g ++ rbrace :: b))).2 = _
  rw [hext]
  show restoreLast ('@' :: (Nat.repr a.length).data) (lbrace :: (g ++ [rbrace]))
      (splitPathC (a ++ ('@' :: (Nat.repr a.length).data) ++ b)) = _
  unfold splitPathC
  rw [hsplitm, stripLeadEmpty_append (by simp)]
  rw [restoreLast_decomp
      (fun q hq => containsSub_head_not_mem (fun hm => hbA (htb q hq '@' hm)))
      (containsSub_of_decomp lastA ('@' :: (Nat.repr a.length).data) hb0)]
  rw [replaceFirstSub_at_junction hAlast hspanD]
  have hmid : a ++ s0 :: b = a ++ [s0] ++ b := by simp
  rw [hmid, hsplits, stripLeadEmpty_append (by simp)]
  rw [List.map_append, List.map_cons]
  rw [map_self_of (fun q hq =>
      replaceFirstSub_no_occ (fun hm => haS (hxs0 q (stripLeadEmpty_subset hq) s0 hm)))]
  rw [map_self_of (fun q hq =>
      replaceFirstSub_no_occ (fun hm => hbS (htb q hq s0 hm)))]
  rw [replaceFirstSub_at_junction hSlast hspanD]

/-! ### C9: checkOptionalParameter expansion -/

/-- C9: checkOptionalParameter("/api/animals/:type?") returns exactly
["/api/animals", "/api/animals/:type"] in that order, and a template without
a trailing optional-parameter marker returns none. -/
theorem checkOptionalParameter_example :
    checkOptionalParameter "/api/animals/:type?" = some ["/api/animals", "/api/animals/:type"]
    ∧ checkOptionalParameter "/api/animals" = none := by
  constructor <;> decide

/-! ### C10: root-level optional parameter -/

/-- C10: when the optional parameter is the only segment, the base variant is
the root path "/", never the empty string. -/
theorem checkOptionalParameter_root :
    checkOptionalParameter "/:type?" = some ["/", "/:type"]
    ∧ checkOptionalParameter "/:id?" = some ["/", "/:id"] := by
  constructor <;> decide

/-! ### C6: mergePath with a bare slash sub-path -/

/-- C6 counterexample: mergePath("/api", "/") is "/api", not "/api/" as the
claim states; the code's own doc comment documents "/api". -/
theorem mergePath_rootsub_cex :
    mergePath "/api" "/" [] = "/api" ∧ mergePath "/api" "/" [] ≠ "/api/" := by
  constructor <;> decide

/-- C6 amended: a sub-path equal to exactly "/" contributes nothing to the
join and the base is only normalized to start with a slash, so an existing
trailing slash of the base survives: mergePath("/api", "/") = "/api" and
mergePath("/api/", "/") = "/api/". -/
theorem mergePath_rootsub :
    (∀ b : List Char, mergeTwoC b ['/'] = leadSlash b)
    ∧ (∀ b su : String, mergePath b su [] = ⟨mergeTwoC b.data su.data⟩)
    ∧ mergePath "/api" "/" [] = "/api"
    ∧ mergePath "/api/" "/" [] = "/api/" := by
  refine ⟨?_, fun b su => rfl, by decide, by decide⟩
  intro b
  unfold mergeTwoC leadSlash
  cases hf : firstIs b '/' <;> simp [hf]

/-! ### C7: mergePath joins with exactly one slash -/

/-- C7: for every base and every sub-path other than the bare slash, the merge
is the base (normalized to a leading slash) with one trailing slash removed,
then exactly one joining slash, then the sub-path with one leading slash
removed; in particular the two examples of the specification. -/
theorem mergePath_join :
    (∀ (b s : List Char), b ≠ [] → s ≠ ['/'] →
        mergeTwoC b s = dropTrailOne (leadSlash b) ++ '/' :: dropLeadOne s)
    ∧ mergePath "/api" "/users" [] = "/api/users"
    ∧ mergePath "/api/" "/" [] = "/api/" := by
  refine ⟨?_, by decide, by decide⟩
  intro b s hb hs
  unfold mergeTwoC leadSlash dropTrailOne dropLeadOne
  cases hf : firstIs b '/' with
  | false =>
    cases hl : lastIs b '/' with
    | false => simp [hf, hl, hs, lastIs_cons hb]
    | true =>
      obtain ⟨b1, rfl⟩ : ∃ b1, b = b1 ++ ['/'] := ⟨b.dropLast, (lastIs_decomp hl).symm⟩
      simp [hf, hl, hs, lastIs_cons hb, List.dropLast_concat]
      rw [show ('/' :: (b1 ++ ['/'])) = ('/' :: b1) ++ ['/'] by simp, List.dropLast_concat]
      simp
  | true =>
    cases hl : lastIs b '/' with
    | false => simp [hf, hl, hs]
    | true =>
      obtain ⟨b1, rfl⟩ : ∃ b1, b = b1 ++ ['/'] := ⟨b.dropLast, (lastIs_decomp hl).symm⟩
      simp [hf, hl, hs, List.dropLast_concat]

/-- C7 witness: the universal part applied at the first concrete example. -/
theorem mergePath_join_witness :
    mergeTwoC "/api".data "/users".data =
      dropTrailOne (leadSlash "/api".data) ++ '/' :: dropLeadOne "/users".data :=
  mergePath_join.1 "/api".data "/users".data (by decide) (by decide)

/-! ### Helper lemmas for the getPath scanning loop -/

/-- find? only depends on the predicate values on the list. -/
theorem find?_congr_mem {α : Type} {p q : α → Bool} {l : List α}
    (h : ∀ x ∈ l, p x = q x) : l.find? p = l.find? q := by
  induction l with
  | nil => rfl
  | cons x t ih =>
    rw [List.find?_cons, List.find?_cons, h x (List.mem_cons_self x t)]
    cases hq : q x with
    | true => rfl
    | false => exact ih (fun y hy => h y (List.mem_cons_of_mem x hy))

/-- find? over an initial range returns the least witness. -/
theorem find?_range_eq_some {n s : Nat} {p : Nat → Bool}
    (hs : s < n) (hps : p s = true) (hmin : ∀ k, k < s → p k = false) :
    (List.range n).find? p = some s := by
  induction n with
  | zero => omega
  | succ m ih =>
    rw [List.range_succ, List.find?_append]
    by_cases hsm : s < m
    · rw [ih hsm]; rfl
    · have hsm2 : s = m := by omega
      subst hsm2
      have hnone : (List.range s).find? p = none :=
        List.find?_eq_none.mpr (fun k hk => by rw [hmin k (List.mem_range.mp hk)]; simp)
      rw [hnone]
      simp [List.find?, hps]

/-- The first hit is at the probe position when the pattern matches there. -/
theorem firstHitFrom_hit {cs pat : List Char} {s : Nat}
    (hs : s ≤ cs.length) (hpre : pat.isPrefixOf (cs.drop s) = true) :
    firstHitFrom cs pat s = some s := by
  unfold firstHitFrom
  refine find?_range_eq_some (by omega) (by simp [hpre]) ?_
  intro k hk
  have hd : decide (s ≤ k) = false := decide_eq_false (by omega)
  simp [hd]

/-- The first hit is unchanged by advancing past a non-matching position. -/
theorem firstHitFrom_step {cs pat : List Char} {s : Nat}
    (hpre : pat.isPrefixOf (cs.drop s) = false) :
    firstHitFrom cs pat s = firstHitFrom cs pat (s + 1) := by
  unfold firstHitFrom
  refine find?_congr_mem ?_
  intro x hx
  by_cases hxs : x = s
  · subst hxs
    have hd : decide (x + 1 ≤ x) = false := decide_eq_false (by omega)
    simp [hpre, hd]
  · by_cases hle : s ≤ x
    · have h1 : s + 1 ≤ x := by omega
      simp [hle, h1]
    · have h1 : ¬ (s + 1 ≤ x) := by omega
      simp [hle, h1]

/-- No hit exists when probing at or past the end with a nonempty pattern. -/
theorem firstHitFrom_none_ge {cs pat : List Char} {s : Nat}
    (hs : cs.length ≤ s) (hpat : pat ≠ []) :
    firstHitFrom cs pat s = none := by
  unfold firstHitFrom
  refine List.find?_eq_none.mpr ?_
  intro x hx habs
  simp only [Bool.and_eq_true] at habs
  obtain ⟨hd, hpre⟩ := habs
  have hsx : s ≤ x := of_decide_eq_true hd
  have hxlen : x < cs.length + 1 := List.mem_range.mp hx
  have hxeq : x = cs.length := by omega
  subst hxeq
  rw [List.drop_length] at hpre
  cases pat with
  | nil => exact hpat rfl
  | cons a t => simp [List.isPrefixOf] at hpre

/-- A JS indexOf result is at least -1. -/
theorem jsIndexOfFrom_neg_one_le (cs pat : List Char) (s : Int) :
    -1 ≤ jsIndexOfFrom cs pat s := by
  unfold jsIndexOfFrom
  cases firstHitFrom cs pat s.toNat with
  | none => show (-1 : Int) ≤ -1; omega
  | some p =>
    show (-1 : Int) ≤ (p : Int)
    have := Int.natCast_nonneg p
    omega

/-- Slicing up to an index at or past the end equals slicing to the end. -/
theorem jsSlice_stop_ge {cs : List Char} {start i : Int} (h : (cs.length : Int) ≤ i) :
    jsSlice cs start (some i) = jsSlice cs start none := by
  unfold jsSlice jsSliceIdx
  have h0 : ¬ i < 0 := by omega
  have hlen : cs.length ≤ i.toNat := by omega
  simp [h0, Nat.min_eq_right hlen]

/-- Unpacking a successful charCodeAt: the index is in range, the character
there is determined by the code, and it occurs in the string. -/
theorem charCodeAt?_some_drop {cs : List Char} {i : Int} {k : Nat}
    (h : charCodeAt? cs i = some k) :
    0 ≤ i ∧ i.toNat < cs.length ∧
      cs.drop i.toNat = Char.ofNat k :: cs.drop (i.toNat + 1) ∧ Char.ofNat k ∈ cs := by
  unfold charCodeAt? at h
  by_cases h0 : i < 0
  · simp [h0] at h
  · rw [if_neg h0] at h
    cases hg : cs.get? i.toNat with
    | none => rw [hg] at h; simp at h
    | some c =>
      rw [hg] at h
      simp at h
      obtain ⟨hlt, hget⟩ := List.get?_eq_some.mp hg
      have hck : Char.ofNat k = c := by rw [← h, Char.ofNat_toNat]
      rw [List.get_eq_getElem] at hget
      refine ⟨by omega, hlt, ?_, ?_⟩
      · rw [List.drop_eq_getElem_cons hlt, hck, hget]
      · rw [hck]
        exact List.get?_mem hg

/-- Common tail of the getPath loop: past the end of the string, the returned
slice equals the slice up to the first question mark (there is none). -/
theorem getPath_slice_end {cs : List Char} {start i : Int} (hge : (cs.length : Int) ≤ i) :
    (⟨jsSlice cs start (some i)⟩ : String) =
      ⟨jsSlice cs start
        (if jsIndexOfFrom cs ['?'] i = -1 then none
         else some (jsIndexOfFrom cs ['?'] i))⟩ := by
  have hq : jsIndexOfFrom cs ['?'] i = -1 := by
    unfold jsIndexOfFrom
    rw [firstHitFrom_none_ge (by omega) (by simp)]
  rw [hq, if_pos rfl, jsSlice_stop_ge hge]

/-- The scanning loop of getPath on a percent-free URL returns the raw
undecoded slice from the start offset to the first question mark at or after
the scan position, or to the end when there is none. -/
theorem getPathGo_no_percent {cs : List Char} (start : Int)
    (hp : ∀ c ∈ cs, c ≠ '%') :
    ∀ (fuel : Nat) (i : Int), -1 ≤ i → (cs.length : Int) - i ≤ fuel →
      getPathGo cs start fuel i =
        ⟨jsSlice cs start
          (if jsIndexOfFrom cs ['?'] i = -1 then none
           else some (jsIndexOfFrom cs ['?'] i))⟩ := by
  intro fuel
  induction fuel with
  | zero =>
    intro i h1 h2
    show (⟨jsSlice cs start (some i)⟩ : String) = _
    exact getPath_slice_end (by omega)
  | succ f ih =>
    intro i h1 h2
    rw [getPathGo.eq_def]
    split
    · rename_i heq
      exact absurd heq (by omega)
    · rename_i i2 k2 i3 f2 heq
      have hf2 : f2 = f := by omega
      subst hf2
      split
      · rename_i hlt
        split
        · rename_i x37 heq37
          exfalso
          obtain ⟨h0, hilen, hdrop, hmem⟩ := charCodeAt?_some_drop heq37
          exact hp (Char.ofNat 37) hmem (by decide)
        · rename_i x63 heq63
          obtain ⟨h0, hilen, hdrop, hmem⟩ := charCodeAt?_some_drop heq63
          have hpre : ['?'].isPrefixOf (cs.drop i2.toNat) = true := by
            rw [hdrop]
            show (('?' == Char.ofNat 63) &&
              (([] : List Char).isPrefixOf (cs.drop (i2.toNat + 1)))) = true
            rw [show ('?' == Char.ofNat 63) = true from by decide]
            rw [show (([] : List Char).isPrefixOf (cs.drop (i2.toNat + 1))) = true from by
              simp [List.isPrefixOf]]
            rfl
          have hq : jsIndexOfFrom cs ['?'] i2 = i2 := by
            unfold jsIndexOfFrom
            rw [firstHitFrom_hit (by omega) hpre]
            show (i2.toNat : Int) = i2
            exact Int.toNat_of_nonneg h0
          rw [hq, if_neg (by omega)]
        · rename_i xcc hne37 hne63
          by_cases h0 : i2 < 0
          · have hi : i2 = -1 := by omega
            subst hi
            rw [show (-1 : Int) + 1 = 0 from rfl]
            rw [ih 0 (by omega) (by omega)]
            rfl
          · have hlt2 : i2.toNat < cs.length := by omega
            cases hg : cs.get? i2.toNat with
            | none =>
              exfalso
              rw [List.get?_eq_none] at hg
              omega
            | some c =>
              have hc63 : c ≠ '?' := by
                intro hc
                refine hne63 ?_
                unfold charCodeAt?
                rw [if_neg h0, hg, hc]
                rfl
              have hstep : jsIndexOfFrom cs ['?'] i2 = jsIndexOfFrom cs ['?'] (i2 + 1) := by
                unfold jsIndexOfFrom
                have htn : (i2 + 1).toNat = i2.toNat + 1 := by omega
                rw [htn, ← firstHitFrom_step ?_]
                obtain ⟨hlt3, hget⟩ := List.get?_eq_some.mp hg
                rw [List.get_eq_getElem] at hget
                rw [List.drop_eq_getElem_cons hlt2, hget]
                show (('?' == c) && ([].isPrefixOf (cs.drop (i2.toNat + 1)))) = false
                simp [Ne.symm hc63]
              rw [ih (i2 + 1) (by omega) (by omega), ← hstep]
      · rename_i hge
        exact getPath_slice_end (by omega)

/-! ### C1: getPath -/

/-- C1 counterexample: for a path containing the literal sequence %25, getPath
does not decode it to a percent sign; the pre-escaping of %25 to %2525 makes
the single decodeURI pass return %25 verbatim, so the result of
getPath("http://localhost/a%25b") is "/a%25b" and not "/a%b". -/
theorem getPath_percent25_cex :
    getPath "http://localhost/a%25b" = "/a%25b"
    ∧ getPath "http://localhost/a%25b" ≠ "/a%b" := by
  constructor <;> decide

/-- C1 amended: getPath returns the path between authority and query,
percent-decoded only when a percent occurs in it (a percent-free URL yields
the raw slice from the path start to the first question mark, or to the end,
undecoded), and a literal %25 sequence in the path is not decoded to a
percent sign by getPath: the pre-escape to %2525 makes the single decodeURI
pass leave %25 in place, for a later consumer to decode exactly once. -/
theorem getPath_examples :
    getPath "http://localhost/a/b?x=1" = "/a/b"
    ∧ getPath "http://localhost/a%20b" = "/a b"
    ∧ getPath "http://localhost/a%20b?x=1" = "/a b"
    ∧ getPath "http://localhost/a%25b" = "/a%25b"
    ∧ getPath "http://localhost/%2525" = "/%2525"
    ∧ (∀ url : String, (∀ c ∈ url.data, c ≠ '%') →
        getPath url =
          ⟨jsSlice url.data (getPathStart url.data)
            (if jsIndexOfFrom url.data ['?'] (getPathStart url.data) = -1 then none
             else some (jsIndexOfFrom url.data ['?'] (getPathStart url.data)))⟩) :=
  ⟨by decide, by decide, by decide, by decide, by decide, fun url hp => by
    show getPathGo url.data (getPathStart url.data) (url.data.length + 2)
        (getPathStart url.data) = _
    have hm1 : -1 ≤ getPathStart url.data :=
      jsIndexOfFrom_neg_one_le url.data ['/'] _
    exact getPathGo_no_percent _ hp _ _ hm1 (by omega)⟩

/-- C1 witness: the percent-free part applied at a concrete URL. -/
theorem getPath_examples_witness :
    getPath "http://h/x/y?q=1" =
      ⟨jsSlice "http://h/x/y?q=1".data (getPathStart "http://h/x/y?q=1".data)
        (if jsIndexOfFrom "http://h/x/y?q=1".data ['?'] (getPathStart "http://h/x/y?q=1".data) = -1
         then none
         else some (jsIndexOfFrom "http://h/x/y?q=1".data ['?']
            (getPathStart "http://h/x/y?q=1".data)))⟩ :=
  getPath_examples.2.2.2.2.2 "http://h/x/y?q=1" (by decide)

/-! ### C4: splitRoutingPath and brace groups -/

/-- C4 counterexample: when a template contains literal text equal to an
internal group marker (at sign followed by the match offset), the brace
content is restored into the wrong segment: for the template containing a
group at offset 1 and a later literal segment "@1x", the group content lands
inside the literal segment and the marker survives in the group segment. -/
theorem splitRoutingPath_marker_cex :
    splitRoutingPath "/{a}/@1x" = ["@1", "{a}x"]
    ∧ splitRoutingPath "/{a}/@1x" ≠ ["{a}", "@1x"] := by
  constructor <;> decide

/-- C4 amended: a slash inside a brace span is never treated as a segment
delimiter and, for templates free of literal marker-like text (no at sign
around the group) whose group holds no dollar, the brace content is restored
verbatim into its segment: for every single-group template the result equals
the split of the template with the group replaced by one opaque sentinel
character, with the group substituted back afterwards; concrete multi-group
templates, including groups whose markers are prefixes of one another, behave
likewise.  A dollar-ampersand pair in the group is expanded by the JS
replacement-string substitution to the internal marker instead. -/
theorem splitRoutingPath_groups :
    (∀ (a g b : List Char) (s0 : Char),
        lbrace ∉ a → '@' ∉ a → s0 ∉ a →
        lbrace ∉ b → '@' ∉ b → s0 ∉ b →
        g ≠ [] → rbrace ∉ g → dollar ∉ g → s0 ≠ '/' →
        splitRoutingPathC (a ++ lbrace :: (g ++ rbrace :: b)) =
          (splitPathC (a ++ s0 :: b)).map
            (replaceFirstSub [s0] (lbrace :: (g ++ [rbrace]))))
    ∧ splitRoutingPath "/a/:id{x/y}/b" = ["a", ":id{x/y}", "b"]
    ∧ splitRoutingPath "/:a{x/y}/:b{p/q}/c" = [":a{x/y}", ":b{p/q}", "c"]
    ∧ splitRoutingPath "/{x/y}aaaa/{p/q}z" = ["{x/y}aaaa", "{p/q}z"]
    ∧ splitRoutingPath ⟨"/".data ++ lbrace :: ("a$&".data ++ [rbrace]) ++ "/b".data⟩ =
        [⟨lbrace :: ("a@1".data ++ [rbrace])⟩, "b"] :=
  ⟨fun a g b s0 h1 h2 h3 h4 h5 h6 h7 h8 h9 h10 =>
      splitRoutingPathC_single_group a g b s0 h1 h2 h3 h4 h5 h6 h7 h8 h9 h10,
    by decide, by decide, by decide, by decide⟩

/-- C4 witness: the single-group part applied to the template of the claim
example, with the null character as sentinel. -/
theorem splitRoutingPath_groups_witness :
    splitRoutingPathC ("/a/:id".data ++ lbrace :: ("x/y".data ++ rbrace :: "/b".data)) =
      (splitPathC ("/a/:id".data ++ Char.ofNat 0 :: "/b".data)).map
        (replaceFirstSub [Char.ofNat 0] (lbrace :: ("x/y".data ++ [rbrace]))) :=
  splitRoutingPath_groups.1 "/a/:id".data "x/y".data "/b".data (Char.ofNat 0)
    (by decide) (by decide) (by decide) (by decide) (by decide) (by decide)
    (by decide) (by decide) (by decide) (by decide)

/-! ### Helper lemmas for the label grammar -/

/-- takeWhile and dropWhile of an all-satisfying list. -/
theorem takeWhile_all {p : Char → Bool} {x : List Char} (hx : ∀ c ∈ x, p c = true) :
    x.takeWhile p = x ∧ x.dropWhile p = [] := by
  induction x with
  | nil => simp
  | cons a t ih =>
    have ha : p a = true := hx a (List.mem_cons_self a t)
    have ht := ih (fun c hc => hx c (List.mem_cons_of_mem a hc))
    simp [List.takeWhile_cons, List.dropWhile_cons, ha, ht.1, ht.2]

/-- takeWhile and dropWhile around an explicit first failure point. -/
theorem takeWhile_append_fail {p : Char → Bool} {x : List Char} {y : Char} {z : List Char}
    (hx : ∀ c ∈ x, p c = true) (hy : p y = false) :
    (x ++ y :: z).takeWhile p = x ∧ (x ++ y :: z).dropWhile p = y :: z := by
  induction x with
  | nil => simp [List.takeWhile_cons, List.dropWhile_cons, hy]
  | cons a t ih =>
    have ha : p a = true := hx a (List.mem_cons_self a t)
    have ht := ih (fun c hc => hx c (List.mem_cons_of_mem a hc))
    simp [List.takeWhile_cons, List.dropWhile_cons, ha, ht.1, ht.2]

/-- The first element kept by dropWhile falsifies the scan predicate. -/
theorem dropWhile_head_false {p : Char → Bool} {l : List Char} {b : Char} {t : List Char}
    (h : l.dropWhile p = b :: t) : p b = false := by
  induction l with
  | nil => simp [List.dropWhile] at h
  | cons a l1 ih =>
    rw [List.dropWhile_cons] at h
    by_cases ha : p a = true
    · rw [if_pos ha] at h
      exact ih h
    · rw [if_neg ha] at h
      injection h with h1 h2
      subst h1
      exact Bool.eq_false_iff.mpr ha

/-- The label regex matches exactly the labels of the pattern grammar. -/
theorem matchLabel_none_iff (label : List Char) :
    matchLabel label = none ↔ ¬ isPatternForm label := by
  constructor
  · intro hm hform
    obtain ⟨name, hne, hnb, hcase⟩ := hform
    rcases hcase with hcase | ⟨con, hcne, hterm, hcase⟩
    · subst hcase
      obtain ⟨ht, hd⟩ := takeWhile_all hnb
      simp only [matchLabel, if_pos rfl, ht, hd] at hm
      rw [if_neg hne] at hm
      exact Option.noConfusion hm
    · subst hcase
      obtain ⟨ht, hd⟩ :=
        @takeWhile_append_fail notBrace name lbrace (con ++ [rbrace]) hnb (by decide)
      simp only [matchLabel, if_pos rfl, ht, hd] at hm
      rw [if_neg hne, if_neg (show ¬ lbrace = rbrace from by decide)] at hm
      have hcond : (con ++ [rbrace]).getLast? = some rbrace ∧ (con ++ [rbrace]).dropLast ≠ [] ∧
          (con ++ [rbrace]).dropLast.all notLineTerm = true := by
        refine ⟨by simp, ?_, ?_⟩
        · rw [List.dropLast_concat]; exact hcne
        · rw [List.dropLast_concat]; exact List.all_eq_true.mpr hterm
      rw [if_pos hcond] at hm
      exact Option.noConfusion hm
  · intro hnform
    cases hm : matchLabel label with
    | none => rfl
    | some pr =>
      exfalso
      apply hnform
      cases label with
      | nil => simp [matchLabel] at hm
      | cons c rest =>
        simp only [matchLabel] at hm
        by_cases hc : c = ':'
        · rw [if_pos hc] at hm
          subst hc
          cases hrem : rest.dropWhile notBrace with
          | nil =>
            simp only [hrem] at hm
            by_cases hname : rest.takeWhile notBrace = []
            · rw [if_pos hname] at hm
              exact Option.noConfusion hm
            · refine ⟨rest.takeWhile notBrace, hname,
                fun c hc => List.mem_takeWhile_imp hc, Or.inl ?_⟩
              have hsplit := List.takeWhile_append_dropWhile notBrace rest
              rw [hrem, List.append_nil] at hsplit
              rw [hsplit]
          | cons b rem1 =>
            simp only [hrem] at hm
            by_cases hname : rest.takeWhile notBrace = []
            · rw [if_pos hname] at hm
              exact Option.noConfusion hm
            · rw [if_neg hname] at hm
              by_cases hb : b = rbrace
              · rw [if_pos hb] at hm
                exact Option.noConfusion hm
              · rw [if_neg hb] at hm
                by_cases hlast : rem1.getLast? = some rbrace ∧ rem1.dropLast ≠ [] ∧
                    rem1.dropLast.all notLineTerm = true
                · have hbl : b = lbrace := by
                    have hfb : notBrace b = false := dropWhile_head_false hrem
                    unfold notBrace at hfb
                    simp at hfb
                    by_cases hbb : b = lbrace
                    · exact hbb
                    · exact absurd (hfb hbb) hb
                  have hrem1 : rem1.dropLast ++ [rbrace] = rem1 := by
                    refine List.dropLast_append_getLast? rbrace ?_
                    simp [hlast.1]
                  refine ⟨rest.takeWhile notBrace, hname,
                    fun c hc => List.mem_takeWhile_imp hc,
                    Or.inr ⟨rem1.dropLast, hlast.2.1, List.all_eq_true.mp hlast.2.2, ?_⟩⟩
                  have hsplit := List.takeWhile_append_dropWhile notBrace rest
                  rw [hrem] at hsplit
                  rw [hrem1, ← hbl, hsplit]
                · rw [if_neg hlast] at hm
                  exact Option.noConfusion hm
        · rw [if_neg hc] at hm
          exact Option.noConfusion hm

/-! ### C3: getPattern case analysis -/

/-- C3: getPattern("*") is the wildcard sentinel for every cache state and
hint; getPattern(":id") is the unconstrained capture named id;
getPattern(":id{[0-9]+}") with no hint compiles the whole-segment anchored
constraint, which accepts "123" and rejects "abc"; the label regex fails on
exactly the labels outside the pattern grammar ":name" / ":name{constraint}"
(name nonempty and brace-free, constraint nonempty and free of line
terminators, which the dot never matches: a constraint holding a newline is
rejected); and on every such non-matching label other than "*" getPattern
yields none and leaves the cache untouched. -/
theorem getPattern_cases :
    (∀ (c : PCache) (next : Option String), getPattern c "*" next = (some Pattern.star, c))
    ∧ (getPattern [] ":id" none).1 = some (Pattern.capture ":id" "id" none)
    ∧ (getPattern [] ":id{[0-9]+}" none).1 =
        some (Pattern.capture ":id{[0-9]+}" "id" (some "^[0-9]+$"))
    ∧ regexTest "^[0-9]+$" "123" = true
    ∧ regexTest "^[0-9]+$" "abc" = false
    ∧ getPattern [] ⟨':' :: 'x' :: lbrace :: ('a' :: Char.ofNat 10 :: 'b' :: [rbrace])⟩ none =
        (none, [])
    ∧ (∀ label : List Char, matchLabel label = none ↔ ¬ isPatternForm label)
    ∧ (∀ (c : PCache) (label : String) (next : Option String),
        matchLabel label.data = none → label ≠ "*" → getPattern c label next = (none, c)) := by
  refine ⟨fun c next => by simp [getPattern], by decide, by decide, by decide, by decide,
    by decide, matchLabel_none_iff, ?_⟩
  intro c label next hm hne
  unfold getPattern
  rw [if_neg hne, hm]

/-- C3 witness: the literal-label part applied at the label "literal". -/
theorem getPattern_cases_witness :
    getPattern [] "literal" none = (none, ([] : PCache)) :=
  getPattern_cases.2.2.2.2.2.2.2 [] "literal" none (by decide) (by decide)

/-! ### C8: the pattern cache is a pure memoization layer -/

/-- C8: getPattern is idempotently memoized: calling again with the identical
(label, next) pair on the resulting cache returns the identical result and
leaves the cache unchanged (so the constraint regex of a pair is compiled at
most once), and an entry once present is never invalidated or overwritten by
any later call. -/
theorem getPattern_memo :
    (∀ (c : PCache) (label : String) (next : Option String),
        getPattern (getPattern c label next).2 label next = getPattern c label next)
    ∧ (∀ (c : PCache) (label : String) (next : Option String) (k : String) (v : Pattern),
        lookupP c k = some v → lookupP (getPattern c label next).2 k = some v) := by
  constructor
  · intro c label next
    by_cases hstar : label = "*"
    · simp [getPattern, hstar]
    · cases hm : matchLabel label.data with
      | none => simp [getPattern, hstar, hm]
      | some pr =>
        obtain ⟨name, con?⟩ := pr
        cases hl : lookupP c (label ++ "#" ++ (match next with | some n => n | none => "undefined")) with
        | some p => simp [getPattern, hstar, hm, hl]
        | none => simp [getPattern, hstar, hm, hl, lookupP_append_self hl]
  · intro c label next k v hv
    by_cases hstar : label = "*"
    · simpa [getPattern, hstar] using hv
    · cases hm : matchLabel label.data with
      | none => simpa [getPattern, hstar, hm] using hv
      | some pr =>
        obtain ⟨name, con?⟩ := pr
        cases hl : lookupP c (label ++ "#" ++ (match next with | some n => n | none => "undefined")) with
        | some p => simpa [getPattern, hstar, hm, hl] using hv
        | none => simp [getPattern, hstar, hm, hl, lookupP_append_mono _ hv]

/-- C8 witness: preservation of an existing cache entry at a concrete call. -/
theorem getPattern_memo_witness :
    lookupP (getPattern [("x", Pattern.star)] ":id" none).2 "x" = some Pattern.star :=
  getPattern_memo.2 [("x", Pattern.star)] ":id" none "x" Pattern.star (by decide)

/-! ### C5: tryDecode is total and decodes run-wise on failure -/

/-- Head shape of runSplit when the input does not start with an escape. -/
theorem runSplit_not_esc {c : Char} {t : List Char} (h : escStart (c :: t) = false) :
    runSplit (c :: t) = Sum.inr c :: runSplit t := by
  rw [runSplit.eq_def]
  simp [h]

/-- Equation of runSplit when the current escape is followed by another run. -/
theorem runSplit_esc_esc {c h1 h2 : Char} {t1 r : List Char} {rest : List (List Char ⊕ Char)}
    (hesc : escStart (c :: h1 :: h2 :: t1) = true) (h1e : escStart t1 = true)
    (hrs : runSplit t1 = Sum.inl r :: rest) :
    runSplit (c :: h1 :: h2 :: t1) = Sum.inl (c :: h1 :: h2 :: r) :: rest := by
  rw [runSplit.eq_def]
  simp [hesc, h1e, hrs]

/-- Equation of runSplit when nothing escape-like follows the current escape. -/
theorem runSplit_esc_stop {c h1 h2 : Char} {t1 : List Char}
    (hesc : escStart (c :: h1 :: h2 :: t1) = true) (h1e : escStart t1 = false) :
    runSplit (c :: h1 :: h2 :: t1) = Sum.inl [c, h1, h2] :: runSplit t1 := by
  rw [runSplit.eq_def]
  simp [hesc, h1e]

/-- When the input starts with an escape, the decomposition starts with a run. -/
theorem runSplit_esc_inl {l : List Char} (h : escStart l = true) :
    ∃ r rest, runSplit l = Sum.inl r :: rest := by
  cases l with
  | nil => simp [escStart] at h
  | cons c t =>
    cases t with
    | nil => simp [escStart] at h
    | cons h1 t2 =>
      cases t2 with
      | nil => simp [escStart] at h
      | cons h2 t1 =>
        by_cases h1e : escStart t1 = true
        · obtain ⟨r, rest, hrs⟩ := runSplit_esc_inl h1e
          exact ⟨c :: h1 :: h2 :: r, rest, runSplit_esc_esc h h1e hrs⟩
        · exact ⟨[c, h1, h2], runSplit t1,
            runSplit_esc_stop h (by simpa using h1e)⟩
termination_by l.length

/-- The decomposition into runs and characters loses nothing: flattening the
raw pieces restores the original string. -/
theorem runSplit_join (l : List Char) : ((runSplit l).map pieceRaw).flatten = l := by
  induction l using runSplit.induct with
  | case1 => rfl
  | case2 c h1 h2 t1 h1e r rest hrs hesc ih =>
    rw [runSplit_esc_esc hesc h1e hrs]
    rw [hrs] at ih
    simp [pieceRaw] at ih ⊢
    simpa [← List.append_assoc] using ih
  | case3 c h1 h2 t1 h1e hesc hnone ih =>
    obtain ⟨r, rest, hrs⟩ := runSplit_esc_inl h1e
    exact absurd hrs (by simpa using hnone r rest)
  | case4 c h1 h2 t1 h1e hesc ih =>
    rw [runSplit_esc_stop hesc (by simpa using h1e)]
    simp [pieceRaw, ih]
  | case5 c t hesc hshape =>
    exfalso
    cases t with
    | nil => simp [escStart] at hesc
    | cons x t2 =>
      cases t2 with
      | nil => simp [escStart] at hesc
      | cons y t3 => exact hshape x y t3 rfl
  | case6 c t hesc ih =>
    rw [runSplit_not_esc (by simpa using hesc)]
    simp [pieceRaw, ih]

/-- Shape of runSplit when the input does not start with an escape. -/
theorem runSplit_shape_not_esc {l : List Char} (h : escStart l = false) :
    runSplit l = [] ∨ ∃ q rest, runSplit l = Sum.inr q :: rest := by
  cases l with
  | nil => left; rfl
  | cons c t => right; exact ⟨c, runSplit t, runSplit_not_esc h⟩

/-- Every run piece of the decomposition is a nonempty sequence of valid
percent escapes (the shape matched by the fallback regex of tryDecode). -/
theorem runSplit_runs (l : List Char) :
    (runSplit l).all (fun p => p.elim isEscapeRun (fun _ => true)) = true := by
  induction l using runSplit.induct with
  | case1 => rfl
  | case2 c h1 h2 t1 h1e r rest hrs hesc ih =>
    rw [runSplit_esc_esc hesc h1e hrs]
    rw [hrs] at ih
    simp at ih ⊢
    obtain ⟨ihr, ihrest⟩ := ih
    refine ⟨?_, ihrest⟩
    simp [escStart] at hesc
    simp [isEscapeRun, hesc.1.1, hesc.1.2, hesc.2, ihr]
  | case3 c h1 h2 t1 h1e hesc hnone ih =>
    obtain ⟨r, rest, hrs⟩ := runSplit_esc_inl h1e
    exact absurd hrs (by simpa using hnone r rest)
  | case4 c h1 h2 t1 h1e hesc ih =>
    rw [runSplit_esc_stop hesc (by simpa using h1e)]
    simp [escStart] at hesc
    simp [isEscapeRun, hesc.1.1, hesc.1.2, hesc.2, ih]
  | case5 c t hesc hshape =>
    exfalso
    cases t with
    | nil => simp [escStart] at hesc
    | cons x t2 =>
      cases t2 with
      | nil => simp [escStart] at hesc
      | cons y t3 => exact hshape x y t3 rfl
  | case6 c t hesc ih =>
    rw [runSplit_not_esc (by simpa using hesc)]
    simpa using ih

/-- Maximality of the runs: no two adjacent run pieces occur. -/
theorem runSplit_maximal (l : List Char) : noTwoInl (runSplit l) = true := by
  induction l using runSplit.induct with
  | case1 => rfl
  | case2 c h1 h2 t1 h1e r rest hrs hesc ih =>
    rw [runSplit_esc_esc hesc h1e hrs]
    rw [hrs] at ih
    simpa [noTwoInl] using (by simpa [noTwoInl] using ih : !inlHead rest && noTwoInl rest = true)
  | case3 c h1 h2 t1 h1e hesc hnone ih =>
    obtain ⟨r, rest, hrs⟩ := runSplit_esc_inl h1e
    exact absurd hrs (by simpa using hnone r rest)
  | case4 c h1 h2 t1 h1e hesc ih =>
    rw [runSplit_esc_stop hesc (by simpa using h1e)]
    rcases @runSplit_shape_not_esc t1 (by simpa using h1e) with hsh | ⟨q, rest, hsh⟩ <;>
      rw [hsh] <;> rw [hsh] at ih <;> simp [noTwoInl, inlHead] at ih ⊢ <;> exact ih
  | case5 c t hesc hshape =>
    exfalso
    cases t with
    | nil => simp [escStart] at hesc
    | cons x t2 =>
      cases t2 with
      | nil => simp [escStart] at hesc
      | cons y t3 => exact hshape x y t3 rfl
  | case6 c t hesc ih =>
    rw [runSplit_not_esc (by simpa using hesc)]
    simpa [noTwoInl] using ih

/-- C5: tryDecode never fails: it returns the whole decode when the decoder
accepts the whole string; otherwise it decodes exactly the maximal runs of
percent escapes that the decoder accepts, returns rejected runs literally
unchanged, and leaves all characters outside escape runs untouched.  The
decomposition into runs is lossless, each run is a nonempty sequence of valid
escapes, and runs are maximal (never adjacent). -/
theorem tryDecode_total_runs :
    (∀ (s : String) (d : Decoder) (r : String), d s = some r → tryDecode s d = r)
    ∧ (∀ (s : String) (d : Decoder), d s = none →
        tryDecode s d = ⟨((runSplit s.data).map (runPiece d)).flatten⟩)
    ∧ (∀ l : List Char, ((runSplit l).map pieceRaw).flatten = l)
    ∧ (∀ l : List Char, (runSplit l).all (fun p => p.elim isEscapeRun (fun _ => true)) = true)
    ∧ (∀ l : List Char, noTwoInl (runSplit l) = true)
    ∧ tryDecode "100% done" jsDecodeURI = "100% done"
    ∧ tryDecode "%zz" jsDecodeURI = "%zz"
    ∧ tryDecode "Hello%20World/%A4%A2" jsDecodeURI = "Hello World/%A4%A2" := by
  refine ⟨?_, ?_, runSplit_join, runSplit_runs, runSplit_maximal, by decide, by decide, by decide⟩
  · intro s d r h
    unfold tryDecode
    rw [h]
  · intro s d h
    unfold tryDecode
    rw [h]

/-- C5 witness: the whole-decode part applied at a concrete string. -/
theorem tryDecode_total_runs_witness :
    tryDecode "Hello%20World" jsDecodeURI = "Hello World" :=
  tryDecode_total_runs.1 "Hello%20World" jsDecodeURI "Hello World" (by decide)

/-! ### C2: query extraction -/

/-- lookupQ is preserved by appending entries on the right. -/
theorem lookupQ_append_mono {res : List (String × QV)} {k : String} {v : QV}
    (l : List (String × QV)) (h : lookupQ res k = some v) :
    lookupQ (res ++ l) k = some v := by
  unfold lookupQ at *
  rw [List.find?_append]
  cases hf : List.find? (fun e => e.1 == k) res with
  | none => simp [hf] at h
  | some e => simpa [hf] using h

/-- Single-value accumulation never changes an existing own binding. -/
theorem singleAdd_preserves {res : ResObj} {k : String} {v : QV}
    {n w : String} (h : lookupQ res.own k = some v) :
    lookupQ (singleAdd res n w).own k = some v := by
  unfold singleAdd
  by_cases hp : isProtoKey n = true
  · rw [if_pos hp]; exact h
  · rw [if_neg hp]
    cases hn : lookupQ res.own n with
    | some q => exact h
    | none => exact lookupQ_append_mono _ h

/-- The general query-scanning loop in single-value mode never changes an
existing own binding: once a key has received its first value, every later
pair with the same key is ignored. -/
theorem gqpLoop_single_preserves (url : List Char) (encoded : Bool) :
    ∀ (fuel : Nat) (ki : Int) (res : ResObj) (k : String) (v : QV),
      lookupQ res.own k = some v →
      lookupQ (gqpLoop url encoded false fuel ki res).own k = some v := by
  intro fuel
  induction fuel with
  | zero => intro ki res k v h; exact h
  | succ f ih =>
    intro ki res k v h
    unfold gqpLoop
    by_cases hki : ki = -1
    · rw [if_pos hki]; exact h
    · rw [if_neg hki]
      cases hscan : gqpScan url encoded ki with
      | mk nk pair =>
        cases pair with
        | none => exact ih _ _ _ _ h
        | some nv =>
          obtain ⟨name, value⟩ := nv
          simpa using ih _ _ _ _ (singleAdd_preserves h)

/-- C2 counterexample: called without a key, getQueryParam("http://h/?a")
returns the full results object (the key "a" mapped to the empty string), not
the empty string itself, so the claimed call shape does not return ""; and
the for-every-key universal fails at keys naming Object.prototype members:
requesting "constructor" against an encoded occurrence of that key returns
the inherited member, not the decoded first value "1". -/
theorem getQueryParam_nokey_cex :
    getQueryParam "http://h/?a" none = JSValue.obj ⟨[("a", QV.s "")], none⟩
    ∧ getQueryParam "http://h/?a" none ≠ JSValue.str ""
    ∧ getQueryParam "http://h/?construct%6Fr=1" (some "constructor") ≠ JSValue.str "1" := by
  refine ⟨by decide, by decide, by decide⟩

/-- C2 amended: the first occurrence of a repeated key wins for getQueryParam,
getQueryParams collects all values in appearance order, an absent key gives
undefined (distinct from the empty string), and a key present without an
equals sign gives the empty string when that key is requested:
getQueryParam("http://h/?a", "a") = "".  The results object literal keeps its
prototype chain: a parameter named after an Object.prototype member stores
nothing in single-value mode (the nullish-coalescing assignment sees the
inherited member), requesting such a key yields the inherited member rather
than undefined or a decoded string, repeated __proto__ parameters in
multi-value mode accumulate on the switched prototype and read back as the
array, and a requested empty-string key is falsy, returning the whole
object.  For all other keys, single-value accumulation ignores later
duplicates and appends fresh keys in insertion order, and the scanning loop
in single-value mode never changes an own binding once set. -/
theorem getQueryParam_examples :
    getQueryParam "http://h/?a=1&a=2" (some "a") = JSValue.str "1"
    ∧ getQueryParams "http://h/?a=1&a=2" (some "a") = JSValue.arr ["1", "2"]
    ∧ getQueryParam "http://h/?a=1" (some "b") = JSValue.undef
    ∧ getQueryParam "http://h/?a" (some "a") = JSValue.str ""
    ∧ getQueryParam "http://h/?toString=1" none = JSValue.obj ⟨[], none⟩
    ∧ getQueryParam "http://h/?construct%6Fr=1" (some "constructor") =
        JSValue.proto "constructor"
    ∧ getQueryParams "http://h/?__proto__=a&__proto__=b" (some "__proto__") =
        JSValue.arr ["a", "b"]
    ∧ getQueryParam "http://h/?a=1" (some "") = JSValue.obj ⟨[("a", QV.s "1")], none⟩
    ∧ (∀ (res : ResObj) (k v : String),
        (lookupQ res.own k).isSome = true → singleAdd res k v = res)
    ∧ (∀ (res : ResObj) (k v : String),
        isProtoKey k = false → lookupQ res.own k = none →
        singleAdd res k v = ⟨res.own ++ [(k, QV.s v)], res.protoArr⟩)
    ∧ (∀ (url : List Char) (encoded : Bool) (fuel : Nat) (ki : Int)
        (res : ResObj) (k : String) (v : QV),
        lookupQ res.own k = some v →
        lookupQ (gqpLoop url encoded false fuel ki res).own k = some v) := by
  refine ⟨by decide, by decide, by decide, by decide, by decide, by decide, by decide,
    by decide, ?_, ?_,
    fun url encoded fuel ki res k v h => gqpLoop_single_preserves url encoded fuel ki res k v h⟩
  · intro res k v h
    unfold singleAdd
    by_cases hp : isProtoKey k = true
    · rw [if_pos hp]
    · rw [if_neg hp]
      cases hl : lookupQ res.own k with
      | none => rw [hl] at h; simp at h
      | some q => rfl
  · intro res k v hp h
    unfold singleAdd
    rw [if_neg (fun hc => by rw [hp] at hc; exact Bool.noConfusion hc), h]

/-- C2 witness: duplicate-free accumulation at a concrete results object, and
loop-level first-wins at a concrete scan. -/
theorem getQueryParam_examples_witness :
    singleAdd ⟨[("a", QV.s "1")], none⟩ "b" "2" = ⟨[("a", QV.s "1"), ("b", QV.s "2")], none⟩
    ∧ lookupQ (gqpLoop "?a=2".data false false 6 0 ⟨[("a", QV.s "1")], none⟩).own "a" =
        some (QV.s "1") :=
  ⟨getQueryParam_examples.2.2.2.2.2.2.2.2.2.1 ⟨[("a", QV.s "1")], none⟩ "b" "2"
      (by decide) (by decide),
    getQueryParam_examples.2.2.2.2.2.2.2.2.2.2 "?a=2".data false 6 0
      ⟨[("a", QV.s "1")], none⟩ "a" (QV.s "1") (by decide)⟩

end HonoUrl
